import Mathlib

/-!
# KID `LNK` archive decoder (`src/fmt/kid/lnk_archive_decoder.cc`) and GLib
PGX converter (`src/formats/glib/pgx_converter.cc`)

A shallow embedding of the archive decoder (format recognition, the
table-of-contents parser, the per-entry key transform, the framing of the inner
`lnd` codec and the extraction loop) and of the PGX converter (header and alpha
fill), followed by the properties proved of them.

Conventions.
* A byte (`u8`) is a `Fin 256`; a byte string (`bstr`, also the bytes of a
  `std::string`) is a list of bytes.
* A `u32` is a natural number below `2 ^ 32`; every place where the source
  computes in 32 bits reduces `% 2 ^ 32` explicitly.  `size_t` positions are
  natural numbers (a buffer held in memory is shorter than `2 ^ 64`).
* A C++ exception is the `Except.error` branch.
-/

namespace au

/-- The source's `u8`: an unsigned 8-bit value. -/
abbrev u8 := Fin 256

/-- The source's `bstr`: a string of bytes. -/
abbrev bstr := List u8

/-- The error kinds of `err.h` that the decoder can raise, named as in the
specification's taxonomy, and the `std::runtime_error` that the PGX converter
throws. -/
inductive Error where
  | TruncatedInputError
  | OutOfRangeError
  | CorruptDataError
  | RuntimeError
deriving DecidableEq, Repr

deriving instance DecidableEq for Except

/-- Reduction of an integer to an unsigned 8-bit value (conversion to `u8`). -/
def to_u8 (x : Int) : u8 := ⟨(x % 256).toNat, by omega⟩

/-- Reduction of a `u32` to a signed 32-bit value (`static_cast<int>`). -/
def to_int (x : Nat) : Int :=
  if x % 2 ^ 32 < 2 ^ 31 then ((x % 2 ^ 32 : Nat) : Int) else ((x % 2 ^ 32 : Nat) : Int) - 2 ^ 32

/-- Value of a little-endian byte sequence. -/
def le_value : bstr → Nat
  | [] => 0
  | b :: bs => b.val + 256 * le_value bs

/-- Modelled from the spec: the Byte Cursor of section 4.1 (`io::IO` and
`io::BufferedIO`, whose sources are not part of the repository extract): an
immutable buffer and a position in it. -/
structure ByteCursor where
  buffer : bstr
  pos : Nat
deriving DecidableEq, Repr

namespace ByteCursor

/-- Modelled from the spec: `tell()` returns the current offset. -/
def tell (c : ByteCursor) : Nat := c.pos

/-- Modelled from the spec: `read(n)` returns exactly `n` bytes or fails with
`TruncatedInputError` if fewer remain. -/
def read (c : ByteCursor) (n : Nat) : Except Error (bstr × ByteCursor) :=
  if c.pos + n ≤ c.buffer.length then
    .ok ((c.buffer.drop c.pos).take n, ⟨c.buffer, c.pos + n⟩)
  else
    .error .TruncatedInputError

/-- Modelled from the spec: `read_u32_le` consumes 4 bytes and fails like `read`
on truncation. -/
def read_u32_le (c : ByteCursor) : Except Error (Nat × ByteCursor) :=
  match c.read 4 with
  | .ok (b, c1) => .ok (le_value b, c1)
  | .error e => .error e

/-- Modelled from the spec: `skip(n)` advances without returning data, failing
like `read` if it would move past the end. -/
def skip (c : ByteCursor) (n : Nat) : Except Error ByteCursor :=
  if c.pos + n ≤ c.buffer.length then
    .ok ⟨c.buffer, c.pos + n⟩
  else
    .error .TruncatedInputError

/-- Modelled from the spec: `seek(pos)` repositions absolutely and fails with
`OutOfRangeError` if `pos` exceeds the buffer length. -/
def seek (c : ByteCursor) (p : Nat) : Except Error ByteCursor :=
  if p ≤ c.buffer.length then
    .ok ⟨c.buffer, p⟩
  else
    .error .OutOfRangeError

/-- Modelled from the spec: `read_to_zero(max_len)` consumes exactly `max_len`
bytes and returns the prefix before the first zero byte (all of them if there is
no zero byte). -/
def read_to_zero (c : ByteCursor) (max_len : Nat) : Except Error (bstr × ByteCursor) :=
  match c.read max_len with
  | .ok (b, c1) => .ok (b.takeWhile (fun x => x != 0), c1)
  | .error e => .error e

/-- Modelled from the spec: `read_to_eof()` returns all remaining bytes. -/
def read_to_eof (c : ByteCursor) : bstr × ByteCursor :=
  (c.buffer.drop c.pos, ⟨c.buffer, c.buffer.length⟩)

/-- Modelled from the spec: `read_u16_le` consumes 2 bytes and fails like `read`
on truncation. -/
def read_u16_le (c : ByteCursor) : Except Error (Nat × ByteCursor) :=
  match c.read 2 with
  | .ok (b, c1) => .ok (le_value b, c1)
  | .error e => .error e

/-- Modelled from the spec: `size()` is the known total length of the
buffer. -/
def size (c : ByteCursor) : Nat := c.buffer.length

end ByteCursor

namespace fmt.kid

/-- The archive magic `"LNK\x00"_b`. -/
def magic : bstr := [0x4C, 0x4E, 0x4B, 0x00]

/-- The magic of the inner codec, `"lnd\x00"_b`. -/
def compress_magic : bstr := [0x6C, 0x6E, 0x64, 0x00]

/-- The source's `TableEntry`. -/
structure TableEntry where
  name : bstr
  compressed : Bool
  offset : Nat
  size : Nat
deriving DecidableEq, Repr

/-- The source's `Table`. -/
abbrev Table := List TableEntry

/-- A `File` as the decoder builds it: a name and the bytes written to its
stream. -/
structure File where
  name : bstr
  content : bstr
deriving DecidableEq, Repr

/-- `LnkArchiveDecoder::is_recognized_internal`: reads `magic.size()` bytes at
the cursor and compares them with the magic. -/
def is_recognized_internal (arc_file : ByteCursor) : Except Error Bool :=
  match arc_file.read magic.length with
  | .ok (b, _) => .ok (b == magic)
  | .error e => .error e

/-- `lnd_decompress`: checks the tag, skips 4 bytes, reads the original size,
skips 4 bytes and hands the rest of the input to `decompress`
(`fmt/kid/decompressor.h`, not part of the repository extract: a parameter). -/
def lnd_decompress (decompress : bstr → Nat → Except Error bstr) (input : bstr) :
    Except Error bstr :=
  let input_io : ByteCursor := ⟨input, 0⟩
  match input_io.read compress_magic.length with
  | .error e => .error e
  | .ok (tag, c1) =>
    if tag != compress_magic then
      .error .CorruptDataError
    else
      match c1.skip 4 with
      | .error e => .error e
      | .ok c2 =>
        match c2.read_u32_le with
        | .error e => .error e
        | .ok (size_original, c3) =>
          match c3.skip 4 with
          | .error e => .error e
          | .ok c4 => decompress c4.read_to_eof.1 size_original

/-- The body of the record loop of `read_table`, run for the `n` records that
remain: each turn reads a relative offset, the size/flag word and the 24-byte
name field, and appends the entry. -/
def read_records (file_data_start : Nat) : Nat → ByteCursor → Except Error (Table × ByteCursor)
  | 0, arc => .ok ([], arc)
  | n + 1, arc =>
    match arc.read_u32_le with
    | .error e => .error e
    | .ok (rel, c1) =>
      match c1.read_u32_le with
      | .error e => .error e
      | .ok (tmp, c2) =>
        match c2.read_to_zero 24 with
        | .error e => .error e
        | .ok (name, c3) =>
          match read_records file_data_start n c3 with
          | .error e => .error e
          | .ok (rest, c4) =>
            .ok (⟨name, tmp % 2 == 1, (rel + file_data_start) % 2 ^ 32, tmp / 2⟩ :: rest, c4)

/-- The value `file_data_start` that `read_table` computes for a record count
read with the cursor then standing at `tell`: `tell + (file_count << 5)`, the
shift being a 32-bit one. -/
def file_data_start (tell file_count : Nat) : Nat :=
  tell + (file_count * 2 ^ 5) % 2 ^ 32

/-- `read_table`: reads the entry count, skips 8 bytes, and reads the
records. The loop `for (auto i : util::range(file_count))` is taken, as section
4.2 of the specification words it, to make one turn for each of the
`file_count` records (`util/range.h` is not part of the repository extract). -/
def read_table (arc : ByteCursor) : Except Error (Table × ByteCursor) :=
  match arc.read_u32_le with
  | .error e => .error e
  | .ok (file_count, c1) =>
    match c1.skip 8 with
    | .error e => .error e
    | .ok c2 => read_records (file_data_start c2.tell file_count) file_count c2

/-- The choice of `key_pos` in `read_file`; `has_extension` is
`File::has_extension` (not part of the repository extract: a parameter). -/
def key_pos (has_extension : bstr → String → Bool) (name : bstr) : Int :=
  if has_extension name ".wav" then 0
  else if has_extension name ".jpg" then 0x1100
  else if has_extension name ".scr" then 0x1000
  else -1

/-- The seed of the key: `u8 key = 0; for (u8 c : entry.name) key += c;`. -/
def key_seed (name : bstr) : u8 :=
  name.foldl (fun key c => to_u8 ((key.val : Int) + (c.val : Int))) 0

/-- One step of the key: `key = key * 0x6D - 0x25`. -/
def key_next (key : u8) : u8 := to_u8 ((key.val : Int) * 0x6D - 0x25)

/-- The statement `data.get<u8>()[j] -= key`. -/
def sub_at (data : bstr) (j : Nat) (key : u8) : bstr :=
  match data[j]? with
  | some b => data.set j (to_u8 ((b.val : Int) - (key.val : Int)))
  | none => data

/-- The loop `for (size_t i = 0; i < 0x100 && key_pos + i < entry.size; i++)`
of `read_file`, from counter `i` on; `fuel` bounds the number of turns. -/
def key_loop (entry_size kp : Nat) : Nat → Nat → u8 → bstr → bstr
  | 0, _, _, data => data
  | fuel + 1, i, key, data =>
    if i < 0x100 ∧ kp + i < entry_size then
      key_loop entry_size kp fuel (i + 1) (key_next key) (sub_at data (kp + i) key)
    else
      data

/-- The key transform of `read_file` (the block guarded by
`key_pos >= 0 && key_pos < static_cast<int>(entry.size)`). -/
def key_transform (has_extension : bstr → String → Bool) (entry : TableEntry) (data : bstr) :
    bstr :=
  let kp := key_pos has_extension entry.name
  if 0 ≤ kp ∧ kp < to_int entry.size then
    key_loop entry.size kp.toNat 0x100 0 (key_seed entry.name) data
  else
    data

/-- `read_file`: seeks to the entry, reads its bytes, applies the key transform
and, for a compressed entry, the inner codec. -/
def read_file (has_extension : bstr → String → Bool)
    (decompress : bstr → Nat → Except Error bstr)
    (arc : ByteCursor) (entry : TableEntry) : Except Error (File × ByteCursor) :=
  match arc.seek entry.offset with
  | .error e => .error e
  | .ok c1 =>
    match c1.read entry.size with
    | .error e => .error e
    | .ok (raw, c2) =>
      let data := key_transform has_extension entry raw
      if entry.compressed then
        match lnd_decompress decompress data with
        | .error e => .error e
        | .ok out => .ok (⟨entry.name, out⟩, c2)
      else
        .ok (⟨entry.name, data⟩, c2)

/-- What a run of `unpack_internal` leaves behind: the files handed to the
saver, in order, and the exception that ended the run, if one did. -/
structure Unpacked where
  saved : List File
  error : Option Error
deriving DecidableEq, Repr

/-- The loop `for (auto &entry : table) saver.save(read_file(arc_file.io, *entry))`
of `unpack_internal`; `saved` is what the saver has received so far. -/
def save_entries (has_extension : bstr → String → Bool)
    (decompress : bstr → Nat → Except Error bstr) :
    Table → ByteCursor → List File → Unpacked
  | [], _, saved => ⟨saved, none⟩
  | entry :: rest, arc, saved =>
    match read_file has_extension decompress arc entry with
    | .error e => ⟨saved, some e⟩
    | .ok (file, c1) => save_entries has_extension decompress rest c1 (saved ++ [file])

/-- `LnkArchiveDecoder::unpack_internal`: skips the magic, reads the table and
saves every entry's file. -/
def unpack_internal (has_extension : bstr → String → Bool)
    (decompress : bstr → Nat → Except Error bstr) (arc_file : ByteCursor) : Unpacked :=
  match arc_file.skip magic.length with
  | .error e => ⟨[], some e⟩
  | .ok c1 =>
    match read_table c1 with
    | .error e => ⟨[], some e⟩
    | .ok (table, c2) => save_entries has_extension decompress table c2 []

/-- The `u32` stored little-endian at offset `p` of a buffer. -/
def u32_at (buf : bstr) (p : Nat) : Nat := le_value ((buf.drop p).take 4)

/-- The `n` bytes of a buffer from offset `p` on. -/
def bytes_at (buf : bstr) (p n : Nat) : bstr := (buf.drop p).take n

/-- The table entry that the 32-byte record at offset `p` of a buffer stands
for, as the record loop of `read_table` builds it. -/
def record_at (buf : bstr) (fds p : Nat) : TableEntry :=
  ⟨(bytes_at buf (p + 8) 24).takeWhile (fun x => x != 0),
   u32_at buf (p + 4) % 2 == 1,
   (u32_at buf p + fds) % 2 ^ 32,
   u32_at buf (p + 4) / 2⟩

/-- The key after `i` steps, as a number: `k_0` is the sum modulo 256 of the
bytes of the name, and `k_(i+1) = (k_i * 0x6D - 0x25) mod 256`. -/
def key_at (name : bstr) : Nat → Nat
  | 0 => (name.map Fin.val).sum % 256
  | i + 1 => (((key_at name i : Int) * 0x6D - 0x25) % 256).toNat

/-! ### Sample containers -/

/-- A container of two uncompressed entries: `a.wav` (3 bytes at relative
offset 0) and `b.txt` (2 bytes at relative offset 3), followed by the 5 payload
bytes `0A 14 1E 28 32`. -/
def sample_container : bstr :=
  [0x4C, 0x4E, 0x4B, 0x00, 0x02, 0x00, 0x00, 0x00, 0x00, 0x00, 0x00, 0x00, 0x00, 0x00, 0x00, 0x00,
   0x00, 0x00, 0x00, 0x00, 0x06, 0x00, 0x00, 0x00, 0x61, 0x2E, 0x77, 0x61, 0x76, 0x00, 0x00, 0x00,
   0x00, 0x00, 0x00, 0x00, 0x00, 0x00, 0x00, 0x00, 0x00, 0x00, 0x00, 0x00, 0x00, 0x00, 0x00, 0x00,
   0x03, 0x00, 0x00, 0x00, 0x04, 0x00, 0x00, 0x00, 0x62, 0x2E, 0x74, 0x78, 0x74, 0x00, 0x00, 0x00,
   0x00, 0x00, 0x00, 0x00, 0x00, 0x00, 0x00, 0x00, 0x00, 0x00, 0x00, 0x00, 0x00, 0x00, 0x00, 0x00,
   0x0A, 0x14, 0x1E, 0x28, 0x32]

/-- A container of one record whose relative offset is `0xFFFFFFFF` (size 1,
name `a`), with no payload. -/
def wrapping_container : bstr :=
  [0x4C, 0x4E, 0x4B, 0x00, 0x01, 0x00, 0x00, 0x00, 0x00, 0x00, 0x00, 0x00, 0x00, 0x00, 0x00, 0x00,
   0xFF, 0xFF, 0xFF, 0xFF, 0x02, 0x00, 0x00, 0x00, 0x61, 0x00, 0x00, 0x00, 0x00, 0x00, 0x00, 0x00,
   0x00, 0x00, 0x00, 0x00, 0x00, 0x00, 0x00, 0x00, 0x00, 0x00, 0x00, 0x00, 0x00, 0x00, 0x00, 0x00]

/-- A stand-in for `File::has_extension` in the examples: the name ends with
the bytes of the extension. -/
def sample_has_extension (name : bstr) (ext : String) : Bool :=
  (name.map Fin.val).drop (name.length - ext.length) == ext.toList.map Char.toNat

/-- A stand-in for `decompress` in the examples: it accepts a stream of exactly
the declared length and returns it. -/
def sample_decompress (input : bstr) (size_original : Nat) : Except Error bstr :=
  if input.length = size_original then .ok input else .error .CorruptDataError

/-- The 16-byte container with `entry_count = 0`: magic, count, 8 reserved
bytes, no records and no payload. -/
def empty_container : bstr :=
  [0x4C, 0x4E, 0x4B, 0x00, 0x00, 0x00, 0x00, 0x00, 0x00, 0x00, 0x00, 0x00, 0x00, 0x00, 0x00, 0x00]

/-- A container of three uncompressed entries over the 2 payload bytes
`01 02`: `a.txt` and `c.txt` address them (2 bytes at relative offset 0), while
`b.txt` between them declares 100 bytes at relative offset 0. -/
def failing_middle_container : bstr :=
  [0x4C, 0x4E, 0x4B, 0x00, 0x03, 0x00, 0x00, 0x00, 0x00, 0x00, 0x00, 0x00, 0x00, 0x00, 0x00, 0x00,
   0x00, 0x00, 0x00, 0x00, 0x04, 0x00, 0x00, 0x00, 0x61, 0x2E, 0x74, 0x78, 0x74, 0x00, 0x00, 0x00,
   0x00, 0x00, 0x00, 0x00, 0x00, 0x00, 0x00, 0x00, 0x00, 0x00, 0x00, 0x00, 0x00, 0x00, 0x00, 0x00,
   0x00, 0x00, 0x00, 0x00, 0xC8, 0x00, 0x00, 0x00, 0x62, 0x2E, 0x74, 0x78, 0x74, 0x00, 0x00, 0x00,
   0x00, 0x00, 0x00, 0x00, 0x00, 0x00, 0x00, 0x00, 0x00, 0x00, 0x00, 0x00, 0x00, 0x00, 0x00, 0x00,
   0x00, 0x00, 0x00, 0x00, 0x04, 0x00, 0x00, 0x00, 0x63, 0x2E, 0x74, 0x78, 0x74, 0x00, 0x00, 0x00,
   0x00, 0x00, 0x00, 0x00, 0x00, 0x00, 0x00, 0x00, 0x00, 0x00, 0x00, 0x00, 0x00, 0x00, 0x00, 0x00,
   0x01, 0x02]

/-- A container whose count field is 3 while only two 32-byte records (`a.txt`
and `b.txt`, both empty) stand behind the 16-byte header: 80 bytes. -/
def overcount_container : bstr :=
  [0x4C, 0x4E, 0x4B, 0x00, 0x03, 0x00, 0x00, 0x00, 0x00, 0x00, 0x00, 0x00, 0x00, 0x00, 0x00, 0x00,
   0x00, 0x00, 0x00, 0x00, 0x00, 0x00, 0x00, 0x00, 0x61, 0x2E, 0x74, 0x78, 0x74, 0x00, 0x00, 0x00,
   0x00, 0x00, 0x00, 0x00, 0x00, 0x00, 0x00, 0x00, 0x00, 0x00, 0x00, 0x00, 0x00, 0x00, 0x00, 0x00,
   0x00, 0x00, 0x00, 0x00, 0x00, 0x00, 0x00, 0x00, 0x62, 0x2E, 0x74, 0x78, 0x74, 0x00, 0x00, 0x00,
   0x00, 0x00, 0x00, 0x00, 0x00, 0x00, 0x00, 0x00, 0x00, 0x00, 0x00, 0x00, 0x00, 0x00, 0x00, 0x00]

/-- An inner-codec buffer: tag `lnd\0`, 4 reserved bytes, original size 5,
4 reserved bytes, and the 3-byte stream `01 02 03`. -/
def short_stream_buffer : bstr :=
  [0x6C, 0x6E, 0x64, 0x00, 0x00, 0x00, 0x00, 0x00, 0x05, 0x00, 0x00, 0x00, 0x00, 0x00, 0x00, 0x00,
   0x01, 0x02, 0x03]

/-- An inner-codec buffer: tag `lnd\0`, 4 reserved bytes, original size 3,
4 reserved bytes, and the 3-byte stream `01 02 03`. -/
def exact_stream_buffer : bstr :=
  [0x6C, 0x6E, 0x64, 0x00, 0x00, 0x00, 0x00, 0x00, 0x03, 0x00, 0x00, 0x00, 0x00, 0x00, 0x00, 0x00,
   0x01, 0x02, 0x03]

/-- Modelled from the spec: `decompress` of `fmt/kid/decompressor.h`, whose
source is not part of the repository extract, as section 4.4 describes it: the
stream is decoded until the input is exhausted or the original size is reached;
exhaustion before the target size is a `CorruptDataError`, and producing fewer
or more bytes than declared is an error too. The back-reference encoding is
external to the contract: `decode_stream` gives the bytes a stream decodes
to. -/
def decompress (decode_stream : bstr → bstr) (input : bstr) (size_original : Nat) :
    Except Error bstr :=
  if (decode_stream input).length = size_original then .ok (decode_stream input)
  else .error .CorruptDataError

/-- The header of a container whose count field is `0x08000000 = 2 ^ 27`. -/
def huge_header : bstr :=
  [0x4C, 0x4E, 0x4B, 0x00, 0x00, 0x00, 0x00, 0x08, 0x00, 0x00, 0x00, 0x00, 0x00, 0x00, 0x00, 0x00]

/-- A container of `2 ^ 27` records, all of them zero bytes, and no payload:
`16 + 2 ^ 32` bytes. -/
def huge_container : bstr := huge_header ++ List.replicate (2 ^ 32) 0

/-- The inverse of the key transform as the claims word it: the key `k_i` is
added, modulo 256, to the byte at `key_pos + i`, for the same `i` as the
transform visits. -/
def key_restore (has_extension : bstr → String → Bool) (entry : TableEntry) (data : bstr) :
    bstr :=
  data.mapIdx (fun m b =>
    if 0 ≤ key_pos has_extension entry.name ∧ (key_pos has_extension entry.name).toNat ≤ m ∧
        m < (key_pos has_extension entry.name).toNat + 0x100 ∧ m < entry.size then
      to_u8 ((b.val : Int) + (key_at entry.name (m - (key_pos has_extension entry.name).toNat) : Int))
    else b)

/-- The statement `data.get<u8>()[j] -= key` with the bounds of the buffer
observed: `none` stands for a write outside the buffer, which the source does
not check. -/
def sub_at_checked (data : bstr) (j : Nat) (key : u8) : Option bstr :=
  match data[j]? with
  | some b => some (data.set j (to_u8 ((b.val : Int) - (key.val : Int))))
  | none => none

/-- The loop `for (size_t i = 0; i < 0x100 && key_pos + i < entry.size; i++)`
of `read_file` with every write observed: the result is `none` as soon as a
write falls outside the buffer, and otherwise the buffer after the loop together
with the indices written, in the order of the writes. -/
def key_loop_checked (entry_size kp : Nat) : Nat → Nat → u8 → bstr → Option (bstr × List Nat)
  | 0, _, _, data => some (data, [])
  | fuel + 1, i, key, data =>
    if i < 0x100 ∧ kp + i < entry_size then
      match sub_at_checked data (kp + i) key with
      | none => none
      | some data1 =>
        match key_loop_checked entry_size kp fuel (i + 1) (key_next key) data1 with
        | none => none
        | some (data2, writes) => some (data2, (kp + i) :: writes)
    else
      some (data, [])

/-- The key transform of `read_file` with every write observed, as
`key_loop_checked` observes them. -/
def key_transform_checked (has_extension : bstr → String → Bool) (entry : TableEntry)
    (data : bstr) : Option (bstr × List Nat) :=
  let kp := key_pos has_extension entry.name
  if 0 ≤ kp ∧ kp < to_int entry.size then
    key_loop_checked entry.size kp.toNat 0x100 0 (key_seed entry.name) data
  else
    some (data, [])

end fmt.kid

end au

namespace Formats.Glib

open au

/-- The magic of a PGX image, `std::string("PGX\x00", 4)`. -/
def magic : bstr := [0x50, 0x47, 0x58, 0x00]

/-- What `decode_internal` hands to `Image::from_pixels`: width, height and
the pixel buffer (the pixel format is always `IMAGE_PIXEL_FORMAT_BGRA`). -/
structure Image where
  image_width : Nat
  image_height : Nat
  pixels : bstr
deriving DecidableEq, Repr

/-- The loop `while (buffer < buffer_guardian) { *buffer = 0xff; buffer += 4; }`
of `decode_internal`: `p` is the offset of `buffer` from the start of the target
buffer, `size` the offset of `buffer_guardian`; `fuel` bounds the number of
turns. -/
def alpha_loop (size : Nat) : Nat → Nat → bstr → bstr
  | 0, _, data => data
  | fuel + 1, p, data =>
    if p < size then alpha_loop size fuel (p + 4) (data.set p 0xff) else data

/-- The block guarded by `if (!transparent)` in `decode_internal`: the loop
starts at `buffer + 3` and runs up to `buffer + target_io.size()`. -/
def fill_alpha (target : bstr) : bstr :=
  alpha_loop target.length target.length 3 target

/-- `PgxConverter::decode_internal`, up to the call of `Image::from_pixels`.
`GmlDecoder::decode` is not part of the repository extract: `gml_decode` gives
the content of `target_io` after decoding `source_io` with `target_size` bytes
reserved. `size_t` is taken as 64 bits wide. -/
def decode_internal (gml_decode : bstr → Nat → Except Error bstr) (file : ByteCursor) :
    Except Error Image :=
  match file.read magic.length with
  | .error e => .error e
  | .ok (tag, c1) =>
    if tag != magic then .error .RuntimeError
    else
      match c1.skip 4 with
      | .error e => .error e
      | .ok c2 =>
        match c2.read_u32_le with
        | .error e => .error e
        | .ok (image_width, c3) =>
          match c3.read_u32_le with
          | .error e => .error e
          | .ok (image_height, c4) =>
            match c4.read_u16_le with
            | .error e => .error e
            | .ok (transparent_field, c5) =>
              match c5.skip 2 with
              | .error e => .error e
              | .ok c6 =>
                match c6.read_u32_le with
                | .error e => .error e
                | .ok (source_size, c7) =>
                  match c7.seek ((c7.size + 2 ^ 64 - source_size) % 2 ^ 64) with
                  | .error e => .error e
                  | .ok c8 =>
                    match c8.read source_size with
                    | .error e => .error e
                    | .ok (source, _) =>
                      match gml_decode source ((image_width * image_height * 4) % 2 ^ 64) with
                      | .error e => .error e
                      | .ok target =>
                        .ok ⟨image_width, image_height,
                          if transparent_field != 0 then target else fill_alpha target⟩

/-- The `u16` stored little-endian at offset `p` of a buffer. -/
def u16_at (buf : bstr) (p : Nat) : Nat := le_value ((buf.drop p).take 2)

/-- A stand-in for `GmlDecoder::decode` in the examples: the target buffer is
the source itself. -/
def sample_gml_decode (source : bstr) (_target_size : Nat) : Except Error bstr := .ok source

/-- A PGX file of a 2 x 1 image whose transparency field is 0 and whose source
is the 8 bytes `01 .. 08`. -/
def sample_pgx_solid : bstr :=
  [0x50, 0x47, 0x58, 0x00, 0x00, 0x00, 0x00, 0x00, 0x02, 0x00, 0x00, 0x00, 0x01, 0x00, 0x00, 0x00,
   0x00, 0x00, 0x00, 0x00, 0x08, 0x00, 0x00, 0x00, 0x01, 0x02, 0x03, 0x04, 0x05, 0x06, 0x07, 0x08]

/-- The same PGX file with the transparency field set to 1. -/
def sample_pgx_transparent : bstr :=
  [0x50, 0x47, 0x58, 0x00, 0x00, 0x00, 0x00, 0x00, 0x02, 0x00, 0x00, 0x00, 0x01, 0x00, 0x00, 0x00,
   0x01, 0x00, 0x00, 0x00, 0x08, 0x00, 0x00, 0x00, 0x01, 0x02, 0x03, 0x04, 0x05, 0x06, 0x07, 0x08]

end Formats.Glib

namespace au.fmt.kid


/-! ## The byte cursor -/

theorem le_value_lt (b : bstr) : le_value b < 256 ^ b.length := by
  induction b with
  | nil => simp [le_value]
  | cons x xs ih =>
    have hx := x.isLt
    simp only [le_value, List.length_cons, pow_succ]
    omega

theorem u32_at_lt (buf : bstr) (p : Nat) : u32_at buf p < 2 ^ 32 := by
  have h := le_value_lt ((buf.drop p).take 4)
  have h2 : ((buf.drop p).take 4).length ≤ 4 := by simp
  have h3 : 256 ^ ((buf.drop p).take 4).length ≤ 256 ^ 4 :=
    Nat.pow_le_pow_right (by norm_num) h2
  unfold u32_at
  omega

theorem read_eq (c : ByteCursor) (n : Nat) (h : c.pos + n ≤ c.buffer.length) :
    c.read n = .ok (bytes_at c.buffer c.pos n, ⟨c.buffer, c.pos + n⟩) := by
  simp [ByteCursor.read, h, bytes_at]

theorem read_fail (c : ByteCursor) (n : Nat) (h : ¬ c.pos + n ≤ c.buffer.length) :
    c.read n = .error .TruncatedInputError := by
  simp [ByteCursor.read, h]

theorem read_u32_le_eq (c : ByteCursor) (h : c.pos + 4 ≤ c.buffer.length) :
    c.read_u32_le = .ok (u32_at c.buffer c.pos, ⟨c.buffer, c.pos + 4⟩) := by
  simp [ByteCursor.read_u32_le, ByteCursor.read, h, u32_at]

theorem read_u32_le_fail (c : ByteCursor) (h : ¬ c.pos + 4 ≤ c.buffer.length) :
    c.read_u32_le = .error .TruncatedInputError := by
  simp [ByteCursor.read_u32_le, ByteCursor.read, h]

/-! ## The table of contents -/

/-- The record loop in closed form: it succeeds exactly when the `n` records
fit in the buffer, and then yields the entries of the records in order and
leaves the cursor behind the last of them. -/
theorem read_records_eq (fds : Nat) (n : Nat) (arc : ByteCursor)
    (hpos : arc.pos ≤ arc.buffer.length) :
    read_records fds n arc =
      if arc.pos + 32 * n ≤ arc.buffer.length then
        .ok ((List.range n).map (fun i => record_at arc.buffer fds (arc.pos + 32 * i)),
          ⟨arc.buffer, arc.pos + 32 * n⟩)
      else .error .TruncatedInputError := by
  induction n generalizing arc with
  | zero => cases arc; simp_all [read_records]
  | succ n ih =>
    unfold read_records
    by_cases h4 : arc.pos + 4 ≤ arc.buffer.length
    · rw [read_u32_le_eq arc h4]
      dsimp only
      by_cases h8 : arc.pos + 4 + 4 ≤ arc.buffer.length
      · rw [read_u32_le_eq ⟨arc.buffer, arc.pos + 4⟩ h8]
        dsimp only
        by_cases h32 : arc.pos + 4 + 4 + 24 ≤ arc.buffer.length
        · simp only [ByteCursor.read_to_zero]
          rw [read_eq ⟨arc.buffer, arc.pos + 4 + 4⟩ 24 h32]
          dsimp only
          rw [ih _ (by dsimp only; omega)]
          dsimp only
          by_cases hn : arc.pos + 32 * (n + 1) ≤ arc.buffer.length
          · have hn2 : arc.pos + 4 + 4 + 24 + 32 * n ≤ arc.buffer.length := by omega
            simp only [hn2, hn, if_true]
            rw [List.range_succ_eq_map]
            simp only [List.map_cons, List.map_map, record_at, Function.comp]
            congr 2
            · congr 1
              apply List.map_congr_left
              intro i _
              have e1 : arc.pos + 4 + 4 + 24 + 32 * i = arc.pos + 32 * (i + 1) := by omega
              simp only [e1, Nat.succ_eq_add_one, Function.comp]
            · congr 1
              omega
          · have hn2 : ¬ arc.pos + 4 + 4 + 24 + 32 * n ≤ arc.buffer.length := by omega
            simp only [hn2, hn, if_false]
        · have hn : ¬ arc.pos + 32 * (n + 1) ≤ arc.buffer.length := by omega
          simp only [ByteCursor.read_to_zero]
          rw [read_fail ⟨arc.buffer, arc.pos + 4 + 4⟩ 24 h32]
          simp only [hn, if_false]
      · have hn : ¬ arc.pos + 32 * (n + 1) ≤ arc.buffer.length := by omega
        rw [read_u32_le_fail ⟨arc.buffer, arc.pos + 4⟩ h8]
        simp only [hn, if_false]
    · have hn : ¬ arc.pos + 32 * (n + 1) ≤ arc.buffer.length := by omega
      rw [read_u32_le_fail arc h4]
      simp only [hn, if_false]

/-- `read_table` in closed form: with `n` the count stored at the cursor, it
succeeds exactly when the count, the 8 skipped bytes and the `n` records fit in
the buffer. -/
theorem read_table_eq (arc : ByteCursor) :
    read_table arc =
      if arc.pos + 12 + 32 * u32_at arc.buffer arc.pos ≤ arc.buffer.length then
        .ok ((List.range (u32_at arc.buffer arc.pos)).map (fun i =>
              record_at arc.buffer (file_data_start (arc.pos + 12) (u32_at arc.buffer arc.pos))
                (arc.pos + 12 + 32 * i)),
          ⟨arc.buffer, arc.pos + 12 + 32 * u32_at arc.buffer arc.pos⟩)
      else .error .TruncatedInputError := by
  unfold read_table
  by_cases h4 : arc.pos + 4 ≤ arc.buffer.length
  · rw [read_u32_le_eq arc h4]
    dsimp only
    by_cases h12 : arc.pos + 4 + 8 ≤ arc.buffer.length
    · have e12 : arc.pos + 4 + 8 = arc.pos + 12 := by omega
      simp only [ByteCursor.skip, h12, if_true, ByteCursor.tell]
      rw [read_records_eq _ _ _ (by dsimp only; omega)]
    · have hn : ¬ arc.pos + 12 + 32 * u32_at arc.buffer arc.pos ≤ arc.buffer.length := by omega
      simp only [ByteCursor.skip, h12, hn, if_false]
  · have hn : ¬ arc.pos + 12 + 32 * u32_at arc.buffer arc.pos ≤ arc.buffer.length := by omega
    rw [read_u32_le_fail arc h4]
    simp only [hn, if_false]

theorem read_table_ok {arc : ByteCursor} {table : Table} {arc1 : ByteCursor}
    (h : read_table arc = .ok (table, arc1)) :
    arc.pos + 12 + 32 * u32_at arc.buffer arc.pos ≤ arc.buffer.length ∧
    table = (List.range (u32_at arc.buffer arc.pos)).map (fun i =>
        record_at arc.buffer (file_data_start (arc.pos + 12) (u32_at arc.buffer arc.pos))
          (arc.pos + 12 + 32 * i)) ∧
    arc1 = ⟨arc.buffer, arc.pos + 12 + 32 * u32_at arc.buffer arc.pos⟩ := by
  rw [read_table_eq] at h
  split at h
  · rename_i hle
    simp only [Except.ok.injEq, Prod.mk.injEq] at h
    exact ⟨hle, h.1.symm, h.2.symm⟩
  · simp at h

theorem map_range_getElem? {α : Type} (f : Nat → α) (n i : Nat) (hi : i < n) :
    ((List.range n).map f)[i]? = some (f i) := by
  simp only [List.getElem?_map, List.getElem?_range hi, Option.map_some']

theorem takeWhile_split (n : bstr) :
    ∃ rest, n = n.takeWhile (fun x => x != 0) ++ rest ∧
      (∀ b ∈ n.takeWhile (fun x => x != 0), b ≠ 0) ∧ (rest = [] ∨ ∃ t, rest = 0 :: t) := by
  refine ⟨n.dropWhile (fun x => x != 0), (List.takeWhile_append_dropWhile _ n).symm, ?_, ?_⟩
  · intro b hb
    have := List.mem_takeWhile_imp hb
    simpa using this
  · cases hd : n.dropWhile (fun x => x != 0) with
    | nil => exact Or.inl rfl
    | cons x t =>
      right
      have hx := List.head_dropWhile_not (fun x => x != 0) n (by simp [hd])
      simp only [hd, List.head_cons] at hx
      refine ⟨t, ?_⟩
      simp at hx
      rw [hx]

/-! ## The key transform -/

theorem to_u8_val (x : Int) : (((to_u8 x).val : Nat) : Int) = x % 256 := by
  simp only [to_u8]
  omega

theorem sub_at_length (data : bstr) (j : Nat) (key : u8) :
    (sub_at data j key).length = data.length := by
  unfold sub_at
  split <;> simp

theorem sub_at_getElem? (data : bstr) (j : Nat) (key : u8) (m : Nat) :
    (sub_at data j key)[m]? =
      if m = j then (data[j]?).map (fun b => to_u8 ((b.val : Int) - (key.val : Int)))
      else data[m]? := by
  unfold sub_at
  split
  · rename_i b hb
    by_cases hm : m = j
    · subst hm
      have hlt : m < data.length := by
        rcases List.getElem?_eq_some_iff.mp hb with ⟨h, _⟩
        exact h
      simp [hb, List.getElem?_set_self hlt]
    · simp [hm, List.getElem?_set_ne (Ne.symm hm)]
  · rename_i hb
    by_cases hm : m = j
    · subst hm
      simp [hb]
    · simp [hm]

theorem key_loop_length (entry_size kp : Nat) (fuel i : Nat) (key : u8) (data : bstr) :
    (key_loop entry_size kp fuel i key data).length = data.length := by
  induction fuel generalizing i key data with
  | zero => simp [key_loop]
  | succ fuel ih =>
    unfold key_loop
    split
    · rw [ih, sub_at_length]
    · rfl

/-- The loop in closed form: the byte at `m` is rewritten exactly when `m`
lies in the window the loop still has to visit, and then the key of that turn
is subtracted from it. -/
theorem key_loop_getElem? (entry_size kp : Nat) (fuel i : Nat) (key : u8) (data : bstr)
    (m : Nat) :
    (key_loop entry_size kp fuel i key data)[m]? =
      if kp + i ≤ m ∧ m < kp + i + fuel ∧ m < kp + 0x100 ∧ m < entry_size then
        (data[m]?).map (fun b => to_u8 ((b.val : Int) - (((key_next^[m - (kp + i)]) key).val : Int)))
      else data[m]? := by
  induction fuel generalizing i key data with
  | zero =>
    have hn : ¬ (kp + i ≤ m ∧ m < kp + i + 0 ∧ m < kp + 0x100 ∧ m < entry_size) := by omega
    simp only [key_loop, hn, if_false]
  | succ fuel ih =>
    unfold key_loop
    by_cases hc : i < 0x100 ∧ kp + i < entry_size
    · rw [if_pos hc, ih, sub_at_getElem?]
      by_cases hm : m = kp + i
      · subst hm
        have h1 : ¬ (kp + (i + 1) ≤ kp + i ∧ kp + i < kp + (i + 1) + fuel ∧
            kp + i < kp + 0x100 ∧ kp + i < entry_size) := by omega
        have h2 : kp + i ≤ kp + i ∧ kp + i < kp + i + (fuel + 1) ∧
            kp + i < kp + 0x100 ∧ kp + i < entry_size := by omega
        rw [if_neg h1, if_pos h2, if_pos rfl]
        simp only [Nat.sub_self, Function.iterate_zero, id_eq]
      · by_cases hw : kp + (i + 1) ≤ m ∧ m < kp + (i + 1) + fuel ∧ m < kp + 0x100 ∧ m < entry_size
        · have h2 : kp + i ≤ m ∧ m < kp + i + (fuel + 1) ∧ m < kp + 0x100 ∧ m < entry_size := by
            omega
          have e : m - (kp + i) = (m - (kp + (i + 1))) + 1 := by omega
          rw [if_pos hw, if_pos h2, if_neg hm, e, Function.iterate_succ_apply]
        · have h2 : ¬ (kp + i ≤ m ∧ m < kp + i + (fuel + 1) ∧ m < kp + 0x100 ∧ m < entry_size) := by
            omega
          rw [if_neg hw, if_neg h2, if_neg hm]
    · have hn : ¬ (kp + i ≤ m ∧ m < kp + i + (fuel + 1) ∧ m < kp + 0x100 ∧ m < entry_size) := by
        omega
      rw [if_neg hc, if_neg hn]

theorem key_seed_foldl (name : bstr) (acc : u8) :
    (name.foldl (fun key c => to_u8 ((key.val : Int) + (c.val : Int))) acc).val =
      (acc.val + (name.map Fin.val).sum) % 256 := by
  induction name generalizing acc with
  | nil =>
    have := acc.isLt
    simp only [List.foldl_nil, List.map_nil, List.sum_nil]
    omega
  | cons c cs ih =>
    simp only [List.foldl_cons, List.map_cons, List.sum_cons]
    rw [ih]
    have h := to_u8_val ((acc.val : Int) + (c.val : Int))
    omega

/-- The key held by the loop in its turn `i` is `k_i`. -/
theorem key_iterate_val (name : bstr) (i : Nat) :
    ((key_next^[i]) (key_seed name)).val = key_at name i := by
  induction i with
  | zero =>
    simp only [Function.iterate_zero, id_eq, key_at, key_seed]
    rw [key_seed_foldl]
    simp
  | succ i ih =>
    rw [Function.iterate_succ_apply']
    simp only [key_at, key_next, ← ih, to_u8]

theorem to_int_of_lt {x : Nat} (h : x < 2 ^ 31) : to_int x = (x : Int) := by
  unfold to_int
  have e : x % 2 ^ 32 = x := Nat.mod_eq_of_lt (by omega)
  rw [e, if_pos h]

/-- The key transform in closed form. -/
theorem key_transform_getElem? (has_extension : bstr → String → Bool) (entry : TableEntry)
    (data : bstr) (m : Nat) :
    (key_transform has_extension entry data)[m]? =
      if 0 ≤ key_pos has_extension entry.name ∧
          key_pos has_extension entry.name < to_int entry.size ∧
          (key_pos has_extension entry.name).toNat ≤ m ∧
          m < (key_pos has_extension entry.name).toNat + 0x100 ∧ m < entry.size then
        (data[m]?).map (fun b => to_u8 ((b.val : Int) -
          ((key_at entry.name (m - (key_pos has_extension entry.name).toNat) : Nat) : Int)))
      else data[m]? := by
  unfold key_transform
  dsimp only
  by_cases hg : 0 ≤ key_pos has_extension entry.name ∧
      key_pos has_extension entry.name < to_int entry.size
  · rw [if_pos hg, key_loop_getElem?]
    by_cases hw : (key_pos has_extension entry.name).toNat ≤ m ∧
        m < (key_pos has_extension entry.name).toNat + 0x100 ∧ m < entry.size
    · rw [if_pos (by omega), if_pos ⟨hg.1, hg.2, hw⟩]
      simp only [Nat.add_zero, key_iterate_val]
    · rw [if_neg (by omega), if_neg (by tauto)]
  · rw [if_neg hg, if_neg (by tauto)]

theorem key_transform_length (has_extension : bstr → String → Bool) (entry : TableEntry)
    (data : bstr) : (key_transform has_extension entry data).length = data.length := by
  unfold key_transform
  dsimp only
  split
  · exact key_loop_length _ _ _ _ _ _
  · rfl

theorem key_pos_cases (has_extension : bstr → String → Bool) (name : bstr) :
    key_pos has_extension name = 0 ∨ key_pos has_extension name = 0x1100 ∨
      key_pos has_extension name = 0x1000 ∨ key_pos has_extension name = -1 := by
  unfold key_pos
  split
  · exact Or.inl rfl
  · split
    · exact Or.inr (Or.inl rfl)
    · split
      · exact Or.inr (Or.inr (Or.inl rfl))
      · exact Or.inr (Or.inr (Or.inr rfl))

/-- Where the guard of the key transform fails, the data are left as they
are. -/
theorem key_transform_id (has_extension : bstr → String → Bool) (entry : TableEntry)
    (data : bstr)
    (h : key_pos has_extension entry.name < 0 ∨
      (entry.size : Int) ≤ key_pos has_extension entry.name) :
    key_transform has_extension entry data = data := by
  unfold key_transform
  dsimp only
  rw [if_neg]
  intro hg
  rcases h with h | h
  · omega
  · have hsz : entry.size < 2 ^ 31 := by
      rcases key_pos_cases has_extension entry.name with e | e | e | e <;> rw [e] at h <;> omega
    rw [to_int_of_lt hsz] at hg
    omega

/-! ## Extraction of one entry -/

/-- The outcome of `read_file` on an entry that lies within the buffer. -/
theorem read_file_in_range (has_extension : bstr → String → Bool)
    (decompress : bstr → Nat → Except Error bstr) (arc : ByteCursor) (entry : TableEntry)
    (h : entry.offset + entry.size ≤ arc.buffer.length) :
    read_file has_extension decompress arc entry =
      if entry.compressed then
        match lnd_decompress decompress
            (key_transform has_extension entry (bytes_at arc.buffer entry.offset entry.size)) with
        | .error e => .error e
        | .ok out => .ok (⟨entry.name, out⟩, ⟨arc.buffer, entry.offset + entry.size⟩)
      else
        .ok (⟨entry.name,
              key_transform has_extension entry (bytes_at arc.buffer entry.offset entry.size)⟩,
            ⟨arc.buffer, entry.offset + entry.size⟩) := by
  have hs : entry.offset ≤ arc.buffer.length := by omega
  unfold read_file
  simp only [ByteCursor.seek, hs, if_true]
  rw [read_eq ⟨arc.buffer, entry.offset⟩ entry.size h]

/-- The outcome of `read_file` on an entry that reaches beyond the buffer. -/
theorem read_file_out_of_range (has_extension : bstr → String → Bool)
    (decompress : bstr → Nat → Except Error bstr) (arc : ByteCursor) (entry : TableEntry)
    (h : arc.buffer.length < entry.offset + entry.size) :
    read_file has_extension decompress arc entry =
      if entry.offset ≤ arc.buffer.length then .error .TruncatedInputError
      else .error .OutOfRangeError := by
  unfold read_file
  by_cases hs : entry.offset ≤ arc.buffer.length
  · simp only [ByteCursor.seek, hs, if_true]
    rw [read_fail ⟨arc.buffer, entry.offset⟩ entry.size (by dsimp only; omega)]
  · simp only [ByteCursor.seek, hs, if_false]

/-- `read_file` seeks absolutely: its outcome does not depend on where the
cursor stands. -/
theorem read_file_pos (has_extension : bstr → String → Bool)
    (decompress : bstr → Nat → Except Error bstr) (buf : bstr) (p q : Nat) (entry : TableEntry) :
    read_file has_extension decompress ⟨buf, p⟩ entry =
      read_file has_extension decompress ⟨buf, q⟩ entry := by
  unfold read_file
  simp only [ByteCursor.seek]

theorem bytes_at_length (buf : bstr) (p n : Nat) (h : p + n ≤ buf.length) :
    (bytes_at buf p n).length = n := by
  simp only [bytes_at, List.length_take, List.length_drop]
  omega

/-! ## The extraction loop -/

theorem read_file_ok_buffer {has_extension : bstr → String → Bool}
    {decompress : bstr → Nat → Except Error bstr} {arc : ByteCursor} {entry : TableEntry}
    {file : File} {arc1 : ByteCursor}
    (h : read_file has_extension decompress arc entry = .ok (file, arc1)) :
    arc1.buffer = arc.buffer ∧ file.name = entry.name := by
  by_cases hin : entry.offset + entry.size ≤ arc.buffer.length
  · rw [read_file_in_range _ _ _ _ hin] at h
    split at h
    · split at h
      · simp at h
      · simp only [Except.ok.injEq, Prod.mk.injEq] at h
        rw [← h.1, ← h.2]
        exact ⟨rfl, rfl⟩
    · simp only [Except.ok.injEq, Prod.mk.injEq] at h
      rw [← h.1, ← h.2]
      exact ⟨rfl, rfl⟩
  · rw [read_file_out_of_range _ _ _ _ (by omega)] at h
    split at h <;> simp at h

/-- The extraction loop on a table all of whose entries extract: every file is
saved, in table order, and no error is left. -/
theorem save_entries_all (has_extension : bstr → String → Bool)
    (decompress : bstr → Nat → Except Error bstr) (buf : bstr) (table : Table) (p : Nat)
    (saved : List File)
    (hall : ∀ e ∈ table, ∃ f c, read_file has_extension decompress ⟨buf, 0⟩ e = .ok (f, c)) :
    ∃ files, save_entries has_extension decompress table ⟨buf, p⟩ saved = ⟨saved ++ files, none⟩ ∧
      List.Forall₂ (fun e f => ∃ c, read_file has_extension decompress ⟨buf, 0⟩ e = .ok (f, c))
        table files := by
  induction table generalizing p saved with
  | nil => exact ⟨[], by simp [save_entries], List.Forall₂.nil⟩
  | cons e rest ih =>
    obtain ⟨f, c, hf⟩ := hall e (List.mem_cons_self _ _)
    have hf2 := hf
    rw [read_file_pos _ _ buf 0 p] at hf2
    have hb := (read_file_ok_buffer hf2).1
    obtain ⟨files, hs, hfa⟩ := ih c.pos (saved ++ [f])
      (fun x hx => hall x (List.mem_cons_of_mem _ hx))
    refine ⟨f :: files, ?_, List.Forall₂.cons ⟨c, hf⟩ hfa⟩
    have hc : c = ⟨buf, c.pos⟩ := by
      cases c
      simp only at hb
      simp [hb]
    simp only [save_entries, hf2]
    rw [hc, hs]
    simp

/-- The extraction loop on a table whose entry behind the prefix `pre` fails:
the files of `pre` are saved, the error of the failing entry ends the loop, and
nothing behind it is looked at. -/
theorem save_entries_first_failure (has_extension : bstr → String → Bool)
    (decompress : bstr → Nat → Except Error bstr) (buf : bstr) (pre : Table) (e : TableEntry)
    (post : Table) (err : Error) (p : Nat) (saved : List File)
    (hpre : ∀ x ∈ pre, ∃ f c, read_file has_extension decompress ⟨buf, 0⟩ x = .ok (f, c))
    (hfail : read_file has_extension decompress ⟨buf, 0⟩ e = .error err) :
    ∃ files, save_entries has_extension decompress (pre ++ e :: post) ⟨buf, p⟩ saved =
        ⟨saved ++ files, some err⟩ ∧
      List.Forall₂ (fun x f => ∃ c, read_file has_extension decompress ⟨buf, 0⟩ x = .ok (f, c))
        pre files := by
  induction pre generalizing p saved with
  | nil =>
    rw [read_file_pos _ _ buf 0 p] at hfail
    exact ⟨[], by simp [save_entries, hfail], List.Forall₂.nil⟩
  | cons x rest ih =>
    obtain ⟨f, c, hf⟩ := hpre x (List.mem_cons_self _ _)
    have hf2 := hf
    rw [read_file_pos _ _ buf 0 p] at hf2
    have hb := (read_file_ok_buffer hf2).1
    obtain ⟨files, hs, hfa⟩ := ih c.pos (saved ++ [f])
      (fun y hy => hpre y (List.mem_cons_of_mem _ hy))
    refine ⟨f :: files, ?_, List.Forall₂.cons ⟨c, hf⟩ hfa⟩
    have hc : c = ⟨buf, c.pos⟩ := by
      cases c
      simp only at hb
      simp [hb]
    simp only [List.cons_append, save_entries, hf2, List.append_eq]
    rw [hc, hs]
    simp

/-- `unpack_internal` on a buffer whose table can be read is the extraction
loop on that table. -/
theorem unpack_internal_of_table (has_extension : bstr → String → Bool)
    (decompress : bstr → Nat → Except Error bstr) (buf : bstr) (table : Table)
    (arc1 : ByteCursor) (ht : read_table ⟨buf, 4⟩ = .ok (table, arc1)) :
    unpack_internal has_extension decompress ⟨buf, 0⟩ =
      save_entries has_extension decompress table ⟨buf, arc1.pos⟩ [] := by
  obtain ⟨hle, _, h1⟩ := read_table_ok ht
  have h4 : 0 + 4 ≤ buf.length := by
    simp only at hle
    omega
  unfold unpack_internal
  simp only [ByteCursor.skip, magic, List.length_cons, List.length_nil, h4, if_true]
  rw [ht]
  rw [h1]

/-- Index-wise reading of a pairing of a table with the files saved for it. -/
theorem forall₂_getElem? {α β : Type} {R : α → β → Prop} {l₁ : List α} {l₂ : List β}
    (h : List.Forall₂ R l₁ l₂) :
    l₁.length = l₂.length ∧
      ∀ (k : Nat) (x : α), l₁[k]? = some x → ∃ y : β, l₂[k]? = some y ∧ R x y := by
  induction h with
  | nil => simp
  | cons hxy _ ih =>
    refine ⟨by simp [ih.1], ?_⟩
    intro k x hk
    cases k with
    | zero =>
      simp only [List.getElem?_cons_zero, Option.some.injEq] at hk
      subst hk
      exact ⟨_, by simp, hxy⟩
    | succ k =>
      simp only [List.getElem?_cons_succ] at hk ⊢
      exact ih.2 k x hk

/-! ## The framing of the inner codec -/

/-- `lnd_decompress` in closed form: the tag is read and compared, the size is
the `u32` at offset 8, and the stream is what follows the 16 header bytes. -/
theorem lnd_decompress_eq (decompress : bstr → Nat → Except Error bstr) (input : bstr) :
    lnd_decompress decompress input =
      if input.length < 4 then .error .TruncatedInputError
      else if input.take 4 ≠ compress_magic then .error .CorruptDataError
      else if input.length < 16 then .error .TruncatedInputError
      else decompress (input.drop 16) (u32_at input 8) := by
  unfold lnd_decompress
  dsimp only
  by_cases h4 : input.length < 4
  · rw [if_pos h4, read_fail _ _ (by simp [compress_magic]; omega)]
  · rw [if_neg h4, read_eq _ _ (by simp [compress_magic]; omega)]
    dsimp only
    have hb : bytes_at input 0 compress_magic.length = input.take 4 := by
      simp [bytes_at, compress_magic]
    rw [hb]
    by_cases htag : input.take 4 ≠ compress_magic
    · rw [if_pos htag, if_pos (by simpa using htag)]
    · rw [if_neg htag, if_neg (by simpa using htag)]
      have hlen : (0 + compress_magic.length) = 4 := by simp [compress_magic]
      rw [hlen]
      by_cases h16 : input.length < 16
      · rw [if_pos h16]
        by_cases h8 : 4 + 4 ≤ input.length
        · simp only [ByteCursor.skip, h8, if_true]
          by_cases h12 : 4 + 4 + 4 ≤ input.length
          · rw [read_u32_le_eq ⟨input, 4 + 4⟩ h12]
            have hn : ¬ 4 + 4 + 4 + 4 ≤ input.length := by omega
            simp only [hn, if_false]
          · rw [read_u32_le_fail ⟨input, 4 + 4⟩ h12]
        · simp only [ByteCursor.skip, h8, if_false]
      · rw [if_neg h16]
        have h8 : 4 + 4 ≤ input.length := by omega
        have h12 : 4 + 4 + 4 ≤ input.length := by omega
        have h16b : 4 + 4 + 4 + 4 ≤ input.length := by omega
        simp only [ByteCursor.skip, h8, if_true]
        rw [read_u32_le_eq ⟨input, 4 + 4⟩ h12]
        simp only [h16b, if_true, ByteCursor.read_to_eof]

theorem read_ok_length {c : ByteCursor} {n : Nat} {raw : bstr} {c1 : ByteCursor}
    (h : c.read n = .ok (raw, c1)) : raw.length = n := by
  by_cases hle : c.pos + n ≤ c.buffer.length
  · rw [read_eq c n hle] at h
    simp only [Except.ok.injEq, Prod.mk.injEq] at h
    rw [← h.1, bytes_at_length _ _ _ hle]
  · rw [read_fail c n hle] at h
    cases h

/-! ## The period of the key -/

theorem key_next_val (x : u8) : (key_next x).val = (109 * x.val + 219) % 256 := by
  have h := to_u8_val ((x.val : Int) * 0x6D - 0x25)
  unfold key_next
  omega

theorem key_iterate_2 (x : u8) : ((key_next^[2]) x).val = (105 * x.val + 26) % 256 := by
  have ha := key_next_val (key_next x)
  have hb := key_next_val x
  rw [show 2 = 1 + 1 from rfl, Function.iterate_add_apply, Function.iterate_one]
  omega

theorem key_iterate_4 (x : u8) : ((key_next^[4]) x).val = (17 * x.val + 196) % 256 := by
  have ha := key_iterate_2 ((key_next^[2]) x)
  have hb := key_iterate_2 x
  rw [show 4 = 2 + 2 from rfl, Function.iterate_add_apply]
  omega

theorem key_iterate_8 (x : u8) : ((key_next^[8]) x).val = (33 * x.val + 200) % 256 := by
  have ha := key_iterate_4 ((key_next^[4]) x)
  have hb := key_iterate_4 x
  rw [show 8 = 4 + 4 from rfl, Function.iterate_add_apply]
  omega

theorem key_iterate_16 (x : u8) : ((key_next^[16]) x).val = (65 * x.val + 144) % 256 := by
  have ha := key_iterate_8 ((key_next^[8]) x)
  have hb := key_iterate_8 x
  rw [show 16 = 8 + 8 from rfl, Function.iterate_add_apply]
  omega

theorem key_iterate_32 (x : u8) : ((key_next^[32]) x).val = (129 * x.val + 32) % 256 := by
  have ha := key_iterate_16 ((key_next^[16]) x)
  have hb := key_iterate_16 x
  rw [show 32 = 16 + 16 from rfl, Function.iterate_add_apply]
  omega

theorem key_iterate_64 (x : u8) : ((key_next^[64]) x).val = (x.val + 64) % 256 := by
  have ha := key_iterate_32 ((key_next^[32]) x)
  have hb := key_iterate_32 x
  rw [show 64 = 32 + 32 from rfl, Function.iterate_add_apply]
  omega

theorem key_iterate_128 (x : u8) : ((key_next^[128]) x).val = (x.val + 128) % 256 := by
  have ha := key_iterate_64 ((key_next^[64]) x)
  have hb := key_iterate_64 x
  rw [show 128 = 64 + 64 from rfl, Function.iterate_add_apply]
  omega

theorem key_iterate_256 (x : u8) : (key_next^[256]) x = x := by
  have ha := key_iterate_128 ((key_next^[128]) x)
  have hb := key_iterate_128 x
  have hx := x.isLt
  rw [show 256 = 128 + 128 from rfl, Function.iterate_add_apply]
  apply Fin.ext
  omega

/-- Every seed has minimal period 256 under the key step. -/
theorem key_minimalPeriod (x : u8) : Function.minimalPeriod key_next x = 256 := by
  have hdvd : Function.minimalPeriod key_next x ∣ 2 ^ 8 :=
    Function.IsPeriodicPt.minimalPeriod_dvd (key_iterate_256 x)
  obtain ⟨k, hk, hp⟩ := (Nat.dvd_prime_pow Nat.prime_two).1 hdvd
  rcases Nat.lt_or_ge k 8 with hlt | hge
  · exfalso
    have h128 : Function.minimalPeriod key_next x ∣ 128 := by
      rw [hp, show 128 = 2 ^ 7 from rfl]
      exact pow_dvd_pow 2 (by omega)
    have hper : Function.IsPeriodicPt key_next 128 x :=
      (Function.isPeriodicPt_minimalPeriod key_next x).trans_dvd h128
    have hv := key_iterate_128 x
    have hx := x.isLt
    have hfix : ((key_next^[128]) x).val = x.val := congrArg Fin.val hper
    omega
  · have hk8 : k = 8 := by omega
    rw [hp, hk8]
    rfl


theorem to_u8_sub_add (b : u8) (k : Nat) :
    to_u8 ((((to_u8 ((b.val : Int) - (k : Int))).val : Nat) : Int) + (k : Int)) = b := by
  have h1 := to_u8_val ((b.val : Int) - (k : Int))
  have h2 := to_u8_val ((((to_u8 ((b.val : Int) - (k : Int))).val : Nat) : Int) + (k : Int))
  have hb := b.isLt
  apply Fin.ext
  omega

theorem to_u8_add_sub (b : u8) (k : Nat) :
    to_u8 ((((to_u8 ((b.val : Int) + (k : Int))).val : Nat) : Int) - (k : Int)) = b := by
  have h1 := to_u8_val ((b.val : Int) + (k : Int))
  have h2 := to_u8_val ((((to_u8 ((b.val : Int) + (k : Int))).val : Nat) : Int) - (k : Int))
  have hb := b.isLt
  apply Fin.ext
  omega

theorem to_u8_sub_sub_eq (b : u8) (k : Nat)
    (h : to_u8 ((((to_u8 ((b.val : Int) - (k : Int))).val : Nat) : Int) - (k : Int)) = b) :
    2 * k % 256 = 0 := by
  have h1 := to_u8_val ((b.val : Int) - (k : Int))
  have h2 := to_u8_val ((((to_u8 ((b.val : Int) - (k : Int))).val : Nat) : Int) - (k : Int))
  have hv := congrArg Fin.val h
  have hb := b.isLt
  omega

theorem key_restore_getElem? (has_extension : bstr → String → Bool) (entry : TableEntry)
    (data : bstr) (m : Nat) :
    (key_restore has_extension entry data)[m]? =
      if 0 ≤ key_pos has_extension entry.name ∧ (key_pos has_extension entry.name).toNat ≤ m ∧
          m < (key_pos has_extension entry.name).toNat + 0x100 ∧ m < entry.size then
        (data[m]?).map (fun b => to_u8 ((b.val : Int) +
          (key_at entry.name (m - (key_pos has_extension entry.name).toNat) : Int)))
      else data[m]? := by
  unfold key_restore
  rw [List.getElem?_mapIdx]
  split
  · rfl
  · cases data[m]? <;> rfl

/-- The closed form of the key transform for an entry whose size is below
`2 ^ 31`: the guard of the transform is then the window itself. -/
theorem key_transform_getElem?_of_lt (has_extension : bstr → String → Bool) (entry : TableEntry)
    (hsize : entry.size < 2 ^ 31) (data : bstr) (m : Nat) :
    (key_transform has_extension entry data)[m]? =
      if 0 ≤ key_pos has_extension entry.name ∧ (key_pos has_extension entry.name).toNat ≤ m ∧
          m < (key_pos has_extension entry.name).toNat + 0x100 ∧ m < entry.size then
        (data[m]?).map (fun b => to_u8 ((b.val : Int) -
          (key_at entry.name (m - (key_pos has_extension entry.name).toNat) : Int)))
      else data[m]? := by
  rw [key_transform_getElem?, to_int_of_lt hsize]
  by_cases hw : 0 ≤ key_pos has_extension entry.name ∧
      (key_pos has_extension entry.name).toNat ≤ m ∧
      m < (key_pos has_extension entry.name).toNat + 0x100 ∧ m < entry.size
  · rw [if_pos hw, if_pos ⟨hw.1, by omega, hw.2⟩]
  · rw [if_neg hw, if_neg (fun h => hw ⟨h.1, h.2.2⟩)]


theorem sub_at_checked_eq (data : bstr) (j : Nat) (key : u8) (h : j < data.length) :
    sub_at_checked data j key = some (sub_at data j key) := by
  unfold sub_at_checked sub_at
  rw [List.getElem?_eq_getElem h]

theorem sub_at_checked_none (data : bstr) (j : Nat) (key : u8) (h : data.length ≤ j) :
    sub_at_checked data j key = none := by
  unfold sub_at_checked
  rw [List.getElem?_eq_none h]

/-- On a buffer that holds at least `entry_size` bytes no write of the loop
falls outside it: the observed loop ends with the buffer that `key_loop` yields,
every index written lies in the window still to visit, at most `0x100 - i`
writes are made, and a byte at an index not written is left as it was. -/
theorem key_loop_checked_eq (entry_size kp : Nat) (fuel i : Nat) (key : u8) (data : bstr)
    (hlen : entry_size ≤ data.length) :
    ∃ writes, key_loop_checked entry_size kp fuel i key data =
        some (key_loop entry_size kp fuel i key data, writes) ∧
      (∀ j ∈ writes, kp + i ≤ j ∧ j < kp + 0x100 ∧ j < entry_size) ∧
      writes.length ≤ 0x100 - i ∧ writes.Nodup ∧
      (∀ m, m ∉ writes → (key_loop entry_size kp fuel i key data)[m]? = data[m]?) := by
  induction fuel generalizing i key data with
  | zero =>
    refine ⟨[], rfl, ?_, ?_, List.nodup_nil, ?_⟩
    · intro j hj
      cases hj
    · exact Nat.zero_le _
    · intro m _
      rfl
  | succ fuel ih =>
    unfold key_loop_checked key_loop
    by_cases hc : i < 0x100 ∧ kp + i < entry_size
    · rw [if_pos hc, if_pos hc, sub_at_checked_eq _ _ _ (by omega)]
      obtain ⟨ws, hws, hwin, hcnt, hnd, hfr⟩ := ih (i + 1) (key_next key)
        (sub_at data (kp + i) key) (by rw [sub_at_length]; exact hlen)
      refine ⟨(kp + i) :: ws, ?_, ?_, ?_, ?_, ?_⟩
      · dsimp only
        rw [hws]
      · intro j hj
        rcases List.mem_cons.mp hj with hj | hj
        · omega
        · have := hwin j hj
          omega
      · simp only [List.length_cons]
        omega
      · rw [List.nodup_cons]
        refine ⟨?_, hnd⟩
        intro hmem
        have := hwin _ hmem
        omega
      · intro m hm
        rw [List.mem_cons, not_or] at hm
        rw [hfr m hm.2, sub_at_getElem?, if_neg hm.1]
    · rw [if_neg hc, if_neg hc]
      refine ⟨[], rfl, ?_, ?_, List.nodup_nil, ?_⟩
      · intro j hj
        cases hj
      · exact Nat.zero_le _
      · intro m _
        rfl


/-! ## Claims -/

/-- C1: on a container buffer of at least 4 bytes, read from its start,
`is_recognized_internal` returns true if and only if bytes 0..3 are
`4C 4E 4B 00`, and returns false for every other 4-byte prefix. -/
theorem is_recognized_internal_iff_magic (buf : bstr) (h : 4 ≤ buf.length) :
    (is_recognized_internal ⟨buf, 0⟩ = .ok true ↔ buf.take 4 = [0x4C, 0x4E, 0x4B, 0x00]) ∧
    (buf.take 4 ≠ [0x4C, 0x4E, 0x4B, 0x00] → is_recognized_internal ⟨buf, 0⟩ = .ok false) := by
  have hr : is_recognized_internal ⟨buf, 0⟩ = .ok (buf.take 4 == magic) := by
    simp [is_recognized_internal, ByteCursor.read, magic, h]
  rw [hr]
  constructor
  · simp [magic]
  · intro hne
    simp [magic, hne]

theorem is_recognized_internal_iff_magic_witness :
    is_recognized_internal ⟨[0x4C, 0x4E, 0x4B, 0x00, 0x02, 0x00], 0⟩ = .ok true ∧
    is_recognized_internal ⟨[0x4C, 0x4E, 0x4B, 0x01, 0x02, 0x00], 0⟩ = .ok false :=
  ⟨(is_recognized_internal_iff_magic [0x4C, 0x4E, 0x4B, 0x00, 0x02, 0x00] (by decide)).1.2
      (by decide),
   (is_recognized_internal_iff_magic [0x4C, 0x4E, 0x4B, 0x01, 0x02, 0x00] (by decide)).2
      (by decide)⟩

/-- C2: when `read_table` succeeds, the table has exactly `entry_count`
entries (the count stored at the cursor), in record order: entry `i` comes from
the record at `12 + 32 * i` bytes behind the cursor, and with `w` that record's
size/flag word and `n` its 24-byte name field, the entry has
`compressed = (w mod 2 = 1)`, `size = w / 2 < 2 ^ 31`, and its name is the part
of `n` before the first zero byte (all of `n` if it has none). -/
theorem read_table_entries (arc : ByteCursor) (table : Table) (arc1 : ByteCursor)
    (h : read_table arc = .ok (table, arc1)) :
    table.length = u32_at arc.buffer arc.pos ∧
    ∀ i, i < u32_at arc.buffer arc.pos →
      ∃ e, table[i]? = some e ∧
        (e.compressed = true ↔ u32_at arc.buffer (arc.pos + 12 + 32 * i + 4) % 2 = 1) ∧
        e.size = u32_at arc.buffer (arc.pos + 12 + 32 * i + 4) / 2 ∧
        e.size < 2 ^ 31 ∧
        (bytes_at arc.buffer (arc.pos + 12 + 32 * i + 8) 24).length = 24 ∧
        (∃ rest, bytes_at arc.buffer (arc.pos + 12 + 32 * i + 8) 24 = e.name ++ rest ∧
          (∀ b ∈ e.name, b ≠ 0) ∧ (rest = [] ∨ ∃ t, rest = 0 :: t)) ∧
        ((0 : u8) ∉ bytes_at arc.buffer (arc.pos + 12 + 32 * i + 8) 24 →
          e.name = bytes_at arc.buffer (arc.pos + 12 + 32 * i + 8) 24) := by
  obtain ⟨hle, ht, _⟩ := read_table_ok h
  subst ht
  refine ⟨by simp, ?_⟩
  intro i hi
  refine ⟨_, map_range_getElem? _ _ i hi, ?_⟩
  have hw := u32_at_lt arc.buffer (arc.pos + 12 + 32 * i + 4)
  refine ⟨by simp [record_at], rfl, ?_, ?_, ?_, ?_⟩
  · simp only [record_at]; omega
  · simp only [bytes_at, List.length_take, List.length_drop]; omega
  · exact takeWhile_split _
  · intro h0
    simp only [record_at]
    rw [List.takeWhile_eq_self_iff]
    intro b hb
    have : b ≠ 0 := fun hb0 => h0 (hb0 ▸ hb)
    simpa using this

theorem read_table_entries_witness :
    read_table ⟨sample_container, 4⟩ =
        .ok ([⟨[0x61, 0x2E, 0x77, 0x61, 0x76], false, 80, 3⟩,
              ⟨[0x62, 0x2E, 0x74, 0x78, 0x74], false, 83, 2⟩], ⟨sample_container, 80⟩) ∧
    ([⟨[0x61, 0x2E, 0x77, 0x61, 0x76], false, 80, 3⟩,
      ⟨[0x62, 0x2E, 0x74, 0x78, 0x74], false, 83, 2⟩] : Table).length =
        u32_at sample_container 4 :=
  ⟨by decide, (read_table_entries ⟨sample_container, 4⟩ _ ⟨sample_container, 80⟩ (by decide)).1⟩

/-- C3 fails as stated: in `wrapping_container` (one record, relative offset
`0xFFFFFFFF`) `read_table` succeeds and the entry's offset is 47, while the
relative offset plus `16 + 32 * entry_count` is 4294967343. -/
theorem read_table_offset_not_exact :
    read_table ⟨wrapping_container, 4⟩ = .ok ([⟨[0x61], false, 47, 1⟩], ⟨wrapping_container, 48⟩) ∧
    u32_at wrapping_container 4 = 1 ∧
    u32_at wrapping_container 16 + (16 + 32 * u32_at wrapping_container 4) = 4294967343 := by
  decide

/-- C3 (amended): when `read_table` succeeds with the cursor right behind the
4-byte magic, every record `i` gives an entry whose offset is the relative offset
plus `file_data_start`, reduced modulo `2 ^ 32`, where `file_data_start` may be
taken as `16 + 32 * entry_count`; the offset is that sum itself whenever the sum
is below `2 ^ 32`. -/
theorem read_table_offset_mod (buf : bstr) (table : Table) (arc1 : ByteCursor)
    (h : read_table ⟨buf, 4⟩ = .ok (table, arc1)) :
    ∀ i, i < u32_at buf 4 →
      ∃ e, table[i]? = some e ∧
        e.offset = (u32_at buf (16 + 32 * i) + (16 + 32 * u32_at buf 4)) % 2 ^ 32 ∧
        (u32_at buf (16 + 32 * i) + (16 + 32 * u32_at buf 4) < 2 ^ 32 →
          e.offset = u32_at buf (16 + 32 * i) + (16 + 32 * u32_at buf 4)) := by
  obtain ⟨hle, ht, _⟩ := read_table_ok h
  subst ht
  intro i hi
  refine ⟨_, map_range_getElem? _ _ i hi, ?_⟩
  have hoff : (record_at buf (file_data_start (4 + 12) (u32_at buf 4)) (4 + 12 + 32 * i)).offset =
      (u32_at buf (16 + 32 * i) + (16 + 32 * u32_at buf 4)) % 2 ^ 32 := by
    simp only [record_at, file_data_start]
    have e : 4 + 12 + 32 * i = 16 + 32 * i := by omega
    rw [e]
    omega
  refine ⟨hoff, ?_⟩
  intro hlt
  dsimp only at hoff ⊢
  rw [hoff, Nat.mod_eq_of_lt hlt]

theorem read_table_offset_mod_witness :
    read_table ⟨wrapping_container, 4⟩ = .ok ([⟨[0x61], false, 47, 1⟩], ⟨wrapping_container, 48⟩) ∧
    ∃ e, ([⟨[0x61], false, 47, 1⟩] : Table)[0]? = some e ∧
      e.offset = (u32_at wrapping_container (16 + 32 * 0) +
        (16 + 32 * u32_at wrapping_container 4)) % 2 ^ 32 ∧
      (u32_at wrapping_container (16 + 32 * 0) + (16 + 32 * u32_at wrapping_container 4) < 2 ^ 32 →
        e.offset = u32_at wrapping_container (16 + 32 * 0) +
          (16 + 32 * u32_at wrapping_container 4)) :=
  ⟨by decide,
   read_table_offset_mod wrapping_container _ ⟨wrapping_container, 48⟩ (by decide) 0 (by decide)⟩

/-- C4: for an entry whose name has extension `.wav` (`kp = 0`), `.jpg`
(`kp = 0x1100`) or `.scr` (`kp = 0x1000`), the first test that holds deciding,
with `kp < entry.size` and `raw` the `entry.size` bytes read for it, and for
every `i < min 256 (entry.size - kp)`: the byte at `kp + i` after the key
transform is `(raw byte at kp + i - k_i) mod 256`. The size is below `2 ^ 31`,
as for every entry that `read_table` builds. -/
theorem key_transform_bytes (has_extension : bstr → String → Bool) (entry : TableEntry)
    (raw : bstr) (kp : Nat)
    (hext : (has_extension entry.name ".wav" = true ∧ kp = 0) ∨
      (has_extension entry.name ".wav" = false ∧ has_extension entry.name ".jpg" = true ∧
        kp = 0x1100) ∨
      (has_extension entry.name ".wav" = false ∧ has_extension entry.name ".jpg" = false ∧
        has_extension entry.name ".scr" = true ∧ kp = 0x1000))
    (hraw : raw.length = entry.size) (hsize : entry.size < 2 ^ 31) (hkp : kp < entry.size)
    (i : Nat) (hi : i < min 256 (entry.size - kp)) :
    ∃ b r, raw[kp + i]? = some b ∧
      (key_transform has_extension entry raw)[kp + i]? = some r ∧
      ((r.val : Nat) : Int) = ((b.val : Int) - (key_at entry.name i : Int)) % 256 := by
  have hk : key_pos has_extension entry.name = (kp : Int) := by
    unfold key_pos
    rcases hext with ⟨h1, h2⟩ | ⟨h1, h2, h3⟩ | ⟨h1, h2, h3, h4⟩
    · simp [h1, h2]
    · simp [h1, h2, h3]
    · simp [h1, h2, h3, h4]
  have hi1 : i < 256 := lt_of_lt_of_le hi (min_le_left _ _)
  have hi2 : i < entry.size - kp := lt_of_lt_of_le hi (min_le_right _ _)
  have hlt : kp + i < raw.length := by omega
  refine ⟨raw[kp + i], _, List.getElem?_eq_getElem hlt, ?_, to_u8_val _⟩
  rw [key_transform_getElem?, hk, to_int_of_lt hsize, Int.toNat_ofNat, if_pos (by omega),
    List.getElem?_eq_getElem hlt]
  simp only [Option.map_some', Nat.add_sub_cancel_left]

theorem key_transform_bytes_witness :
    ∃ b r, ([0x0A, 0x14, 0x1E] : bstr)[0 + 1]? = some b ∧
      (key_transform sample_has_extension ⟨[0x61, 0x2E, 0x77, 0x61, 0x76], false, 80, 3⟩
        [0x0A, 0x14, 0x1E])[0 + 1]? = some r ∧
      ((r.val : Nat) : Int) =
        ((b.val : Int) - (key_at [0x61, 0x2E, 0x77, 0x61, 0x76] 1 : Int)) % 256 :=
  key_transform_bytes sample_has_extension ⟨[0x61, 0x2E, 0x77, 0x61, 0x76], false, 80, 3⟩
    [0x0A, 0x14, 0x1E] 0 (Or.inl ⟨by decide, rfl⟩) (by decide) (by decide) (by decide) 1
    (by decide)

/-- C5: for an uncompressed entry lying within the container on which the key
transform does not apply (the name has none of the extensions `.wav`, `.jpg`,
`.scr`, or `key_pos` is at or beyond `entry.size`), `read_file` succeeds and the
content of the file is the container's bytes `[offset, offset + size)`
verbatim. -/
theorem read_file_verbatim (has_extension : bstr → String → Bool)
    (decompress : bstr → Nat → Except Error bstr) (arc : ByteCursor) (entry : TableEntry)
    (hunc : entry.compressed = false)
    (hin : entry.offset + entry.size ≤ arc.buffer.length)
    (hkey : (has_extension entry.name ".wav" = false ∧ has_extension entry.name ".jpg" = false ∧
        has_extension entry.name ".scr" = false) ∨
      (entry.size : Int) ≤ key_pos has_extension entry.name) :
    ∃ arc1, read_file has_extension decompress arc entry =
        .ok (⟨entry.name, (arc.buffer.drop entry.offset).take entry.size⟩, arc1) := by
  have hid : key_pos has_extension entry.name < 0 ∨
      (entry.size : Int) ≤ key_pos has_extension entry.name := by
    rcases hkey with ⟨h1, h2, h3⟩ | h
    · left
      simp [key_pos, h1, h2, h3]
    · exact Or.inr h
  refine ⟨⟨arc.buffer, entry.offset + entry.size⟩, ?_⟩
  rw [read_file_in_range _ _ _ _ hin, hunc, key_transform_id _ _ _ hid]
  simp [bytes_at]

theorem read_file_verbatim_witness :
    ∃ arc1, read_file sample_has_extension sample_decompress ⟨sample_container, 80⟩
        ⟨[0x62, 0x2E, 0x74, 0x78, 0x74], false, 83, 2⟩ =
      .ok (⟨[0x62, 0x2E, 0x74, 0x78, 0x74], (sample_container.drop 83).take 2⟩, arc1) :=
  read_file_verbatim sample_has_extension sample_decompress ⟨sample_container, 80⟩
    ⟨[0x62, 0x2E, 0x74, 0x78, 0x74], false, 83, 2⟩ rfl (by decide) (Or.inl (by decide))

/-- C6: for an entry with `compressed = false` on which `read_file` succeeds,
whatever its extension, the length of the content equals `entry.size`. -/
theorem read_file_uncompressed_length (has_extension : bstr → String → Bool)
    (decompress : bstr → Nat → Except Error bstr) (arc : ByteCursor) (entry : TableEntry)
    (file : File) (arc1 : ByteCursor)
    (hunc : entry.compressed = false)
    (h : read_file has_extension decompress arc entry = .ok (file, arc1)) :
    file.content.length = entry.size := by
  by_cases hin : entry.offset + entry.size ≤ arc.buffer.length
  · rw [read_file_in_range _ _ _ _ hin, hunc] at h
    simp only [Bool.false_eq_true, if_false, Except.ok.injEq, Prod.mk.injEq] at h
    rw [← h.1]
    dsimp only
    rw [key_transform_length, bytes_at_length _ _ _ hin]
  · rw [read_file_out_of_range _ _ _ _ (by omega)] at h
    split at h <;> simp at h

theorem read_file_uncompressed_length_witness :
    (⟨[0x61, 0x2E, 0x77, 0x61, 0x76], [0x2D, 0x20, 0x5F]⟩ : File).content.length =
      (⟨[0x61, 0x2E, 0x77, 0x61, 0x76], false, 80, 3⟩ : TableEntry).size :=
  read_file_uncompressed_length sample_has_extension sample_decompress ⟨sample_container, 80⟩
    ⟨[0x61, 0x2E, 0x77, 0x61, 0x76], false, 80, 3⟩ ⟨[0x61, 0x2E, 0x77, 0x61, 0x76], [0x2D, 0x20, 0x5F]⟩
    ⟨sample_container, 83⟩ rfl (by decide)

/-- C7: for an entry with `entry.offset + entry.size` greater than the
container length, `read_file` fails with `OutOfRangeError` or
`TruncatedInputError`, whatever the cursor position, and the extraction loop
hands no file for it to the saver: the saver is left as it was and the loop ends
with that error. -/
theorem read_file_beyond_container (has_extension : bstr → String → Bool)
    (decompress : bstr → Nat → Except Error bstr) (arc : ByteCursor) (entry : TableEntry)
    (h : arc.buffer.length < entry.offset + entry.size) :
    ∃ err, (err = Error.OutOfRangeError ∨ err = Error.TruncatedInputError) ∧
      read_file has_extension decompress arc entry = .error err ∧
      ∀ (rest : Table) (saved : List File),
        save_entries has_extension decompress (entry :: rest) arc saved = ⟨saved, some err⟩ := by
  have hr := read_file_out_of_range has_extension decompress arc entry h
  by_cases hs : entry.offset ≤ arc.buffer.length
  · rw [if_pos hs] at hr
    refine ⟨_, Or.inr rfl, hr, ?_⟩
    intro rest saved
    simp only [save_entries, hr]
  · rw [if_neg hs] at hr
    refine ⟨_, Or.inl rfl, hr, ?_⟩
    intro rest saved
    simp only [save_entries, hr]

theorem read_file_beyond_container_witness :
    ∃ err, (err = Error.OutOfRangeError ∨ err = Error.TruncatedInputError) ∧
      read_file sample_has_extension sample_decompress ⟨sample_container, 80⟩
        ⟨[0x62, 0x2E, 0x74, 0x78, 0x74], false, 83, 3⟩ = .error err ∧
      ∀ (rest : Table) (saved : List File),
        save_entries sample_has_extension sample_decompress
          (⟨[0x62, 0x2E, 0x74, 0x78, 0x74], false, 83, 3⟩ :: rest) ⟨sample_container, 80⟩ saved =
          ⟨saved, some err⟩ :=
  read_file_beyond_container sample_has_extension sample_decompress ⟨sample_container, 80⟩
    ⟨[0x62, 0x2E, 0x74, 0x78, 0x74], false, 83, 3⟩ (by decide)

/-- C8: on a container whose table can be read (cursor behind the 4-byte magic)
and all of whose entries extract, `unpack_internal` ends without error and hands
the saver exactly `entry_count` files in table order, the `k`-th being the file
that `read_file` yields for the `k`-th table record and carrying that record's
name; in particular on a 16-byte container with `entry_count = 0` it hands over
no file and ends without error. -/
theorem unpack_internal_saves_all (has_extension : bstr → String → Bool)
    (decompress : bstr → Nat → Except Error bstr) (buf : bstr) :
    (∀ (table : Table) (arc1 : ByteCursor),
      read_table ⟨buf, 4⟩ = .ok (table, arc1) →
      (∀ e ∈ table, ∃ f c, read_file has_extension decompress ⟨buf, 0⟩ e = .ok (f, c)) →
      ∃ files, unpack_internal has_extension decompress ⟨buf, 0⟩ = ⟨files, none⟩ ∧
        files.length = u32_at buf 4 ∧
        ∀ k, k < u32_at buf 4 →
          ∃ e f, table[k]? = some e ∧ files[k]? = some f ∧ f.name = e.name ∧
            e.name = (bytes_at buf (16 + 32 * k + 8) 24).takeWhile (fun x => x != 0) ∧
            ∃ c, read_file has_extension decompress ⟨buf, 0⟩ e = .ok (f, c)) ∧
    (buf.length = 16 → u32_at buf 4 = 0 →
      unpack_internal has_extension decompress ⟨buf, 0⟩ = ⟨[], none⟩) := by
  constructor
  · intro table arc1 ht hall
    obtain ⟨files, hs, hfa⟩ := save_entries_all has_extension decompress buf table arc1.pos [] hall
    obtain ⟨hlen, hget⟩ := forall₂_getElem? hfa
    obtain ⟨_, htab, _⟩ := read_table_ok ht
    refine ⟨files, ?_, ?_, ?_⟩
    · rw [unpack_internal_of_table _ _ _ _ _ ht, hs]
      simp
    · rw [← hlen, htab]
      simp
    · intro k hk
      have hk2 : table[k]? = some (record_at buf (file_data_start (4 + 12) (u32_at buf 4))
          (4 + 12 + 32 * k)) := by
        rw [htab]
        exact map_range_getElem? _ _ k hk
      obtain ⟨f, hf, c, hc⟩ := hget k _ hk2
      refine ⟨_, f, hk2, hf, (read_file_ok_buffer hc).2, ?_, c, hc⟩
      have e : 4 + 12 + 32 * k = 16 + 32 * k := by omega
      simp only [record_at, e]
  · intro hlen hcount
    have ht : read_table ⟨buf, 4⟩ = .ok ([], ⟨buf, 16⟩) := by
      rw [read_table_eq]
      simp only [hcount, hlen]
      simp
    rw [unpack_internal_of_table _ _ _ _ _ ht]
    simp [save_entries]

theorem unpack_internal_saves_all_witness :
    (∃ files, unpack_internal sample_has_extension sample_decompress ⟨sample_container, 0⟩ =
        ⟨files, none⟩ ∧ files.length = u32_at sample_container 4 ∧
        ∀ k, k < u32_at sample_container 4 →
          ∃ e f, ([⟨[0x61, 0x2E, 0x77, 0x61, 0x76], false, 80, 3⟩,
              ⟨[0x62, 0x2E, 0x74, 0x78, 0x74], false, 83, 2⟩] : Table)[k]? = some e ∧
            files[k]? = some f ∧ f.name = e.name ∧
            e.name = (bytes_at sample_container (16 + 32 * k + 8) 24).takeWhile
              (fun x => x != 0) ∧
            ∃ c, read_file sample_has_extension sample_decompress ⟨sample_container, 0⟩ e =
              .ok (f, c)) ∧
    unpack_internal sample_has_extension sample_decompress ⟨empty_container, 0⟩ = ⟨[], none⟩ :=
  ⟨(unpack_internal_saves_all sample_has_extension sample_decompress sample_container).1
      _ ⟨sample_container, 80⟩ (by decide)
      (by
        intro e he
        simp only [List.mem_cons, List.mem_singleton, List.not_mem_nil, or_false] at he
        rcases he with rfl | rfl
        · exact ⟨⟨[0x61, 0x2E, 0x77, 0x61, 0x76], [0x2D, 0x20, 0x5F]⟩, ⟨sample_container, 83⟩,
            by decide⟩
        · exact ⟨⟨[0x62, 0x2E, 0x74, 0x78, 0x74], [0x28, 0x32]⟩, ⟨sample_container, 85⟩,
            by decide⟩),
   (unpack_internal_saves_all sample_has_extension sample_decompress empty_container).2
      (by decide) (by decide)⟩

/-- C9 fails as stated: in `failing_middle_container` the second entry reaches
beyond the container and the third one extracts on its own, yet
`unpack_internal` ends with the second entry's error having handed the saver the
first file only. -/
theorem unpack_internal_aborts_on_first_failure :
    read_table ⟨failing_middle_container, 4⟩ =
      .ok ([⟨[0x61, 0x2E, 0x74, 0x78, 0x74], false, 112, 2⟩,
            ⟨[0x62, 0x2E, 0x74, 0x78, 0x74], false, 112, 100⟩,
            ⟨[0x63, 0x2E, 0x74, 0x78, 0x74], false, 112, 2⟩], ⟨failing_middle_container, 112⟩) ∧
    read_file sample_has_extension sample_decompress ⟨failing_middle_container, 112⟩
      ⟨[0x62, 0x2E, 0x74, 0x78, 0x74], false, 112, 100⟩ = .error .TruncatedInputError ∧
    read_file sample_has_extension sample_decompress ⟨failing_middle_container, 112⟩
      ⟨[0x63, 0x2E, 0x74, 0x78, 0x74], false, 112, 2⟩ =
        .ok (⟨[0x63, 0x2E, 0x74, 0x78, 0x74], [0x01, 0x02]⟩, ⟨failing_middle_container, 114⟩) ∧
    unpack_internal sample_has_extension sample_decompress ⟨failing_middle_container, 0⟩ =
      ⟨[⟨[0x61, 0x2E, 0x74, 0x78, 0x74], [0x01, 0x02]⟩], some .TruncatedInputError⟩ := by
  decide

/-- C9 (amended): on a container whose table can be read and in which entry
`i` is the first whose extraction fails, `unpack_internal` hands the saver
exactly the files of the `i` entries before it, in table order, and ends with
the error of entry `i`; no entry behind it is extracted. -/
theorem unpack_internal_stops_at_first_failure (has_extension : bstr → String → Bool)
    (decompress : bstr → Nat → Except Error bstr) (buf : bstr) (table : Table)
    (arc1 : ByteCursor) (i : Nat) (e : TableEntry) (err : Error)
    (ht : read_table ⟨buf, 4⟩ = .ok (table, arc1))
    (hi : table[i]? = some e)
    (hfail : read_file has_extension decompress ⟨buf, 0⟩ e = .error err)
    (hbefore : ∀ j, j < i → ∃ x f c, table[j]? = some x ∧
      read_file has_extension decompress ⟨buf, 0⟩ x = .ok (f, c)) :
    ∃ files, unpack_internal has_extension decompress ⟨buf, 0⟩ = ⟨files, some err⟩ ∧
      files.length = i ∧
      ∀ j, j < i → ∃ x f c, table[j]? = some x ∧ files[j]? = some f ∧
        read_file has_extension decompress ⟨buf, 0⟩ x = .ok (f, c) := by
  obtain ⟨hil, hie⟩ := List.getElem?_eq_some_iff.mp hi
  have hsplit : table = table.take i ++ e :: table.drop (i + 1) := by
    rw [← hie, ← List.drop_eq_getElem_cons hil, List.take_append_drop]
  have hpre : ∀ x ∈ table.take i, ∃ f c,
      read_file has_extension decompress ⟨buf, 0⟩ x = .ok (f, c) := by
    intro x hx
    obtain ⟨j, hj⟩ := List.mem_iff_getElem?.mp hx
    have hjlt : j < i := by
      by_contra hge
      rw [List.getElem?_take_eq_none (by omega)] at hj
      simp at hj
    rw [List.getElem?_take_of_lt hjlt] at hj
    obtain ⟨y, f, c, hy, hf⟩ := hbefore j hjlt
    rw [hy, Option.some.injEq] at hj
    exact ⟨f, c, hj ▸ hf⟩
  obtain ⟨files, hs, hfa⟩ := save_entries_first_failure has_extension decompress buf
    (table.take i) e (table.drop (i + 1)) err arc1.pos [] hpre hfail
  obtain ⟨hlen, hget⟩ := forall₂_getElem? hfa
  refine ⟨files, ?_, ?_, ?_⟩
  · rw [unpack_internal_of_table _ _ _ _ _ ht, hsplit, hs]
    simp
  · rw [← hlen, List.length_take]
    omega
  · intro j hj
    obtain ⟨x, f, c, hx, _⟩ := hbefore j hj
    have hx2 : (table.take i)[j]? = some x := by
      rw [List.getElem?_take_of_lt hj]
      exact hx
    obtain ⟨f2, hf2, c2, hc2⟩ := hget j x hx2
    exact ⟨x, f2, c2, hx, hf2, hc2⟩

theorem unpack_internal_stops_at_first_failure_witness :
    ∃ files, unpack_internal sample_has_extension sample_decompress
        ⟨failing_middle_container, 0⟩ = ⟨files, some .TruncatedInputError⟩ ∧
      files.length = 1 ∧
      ∀ j, j < 1 → ∃ x f c, ([⟨[0x61, 0x2E, 0x74, 0x78, 0x74], false, 112, 2⟩,
            ⟨[0x62, 0x2E, 0x74, 0x78, 0x74], false, 112, 100⟩,
            ⟨[0x63, 0x2E, 0x74, 0x78, 0x74], false, 112, 2⟩] : Table)[j]? = some x ∧
        files[j]? = some f ∧
        read_file sample_has_extension sample_decompress ⟨failing_middle_container, 0⟩ x =
          .ok (f, c) :=
  unpack_internal_stops_at_first_failure sample_has_extension sample_decompress
    failing_middle_container _ ⟨failing_middle_container, 112⟩ 1
    ⟨[0x62, 0x2E, 0x74, 0x78, 0x74], false, 112, 100⟩ .TruncatedInputError
    (by decide) (by decide) (by decide)
    (by
      intro j hj
      have hj0 : j = 0 := by omega
      subst hj0
      exact ⟨⟨[0x61, 0x2E, 0x74, 0x78, 0x74], false, 112, 2⟩,
        ⟨[0x61, 0x2E, 0x74, 0x78, 0x74], [0x01, 0x02]⟩, ⟨failing_middle_container, 114⟩,
        by decide, by decide⟩)

/-- C10 fails as stated: on the 3-byte buffer `4C 4E 4B` the recognition
function does not answer false but fails with `TruncatedInputError`, and so it
does on the empty buffer. -/
theorem is_recognized_internal_short_buffer_fails :
    is_recognized_internal ⟨[0x4C, 0x4E, 0x4B], 0⟩ = .error .TruncatedInputError ∧
    is_recognized_internal ⟨[], 0⟩ = .error .TruncatedInputError := by
  decide

/-- C10 (amended): on every buffer of at least 4 bytes, read from its start,
`is_recognized_internal` returns a boolean and does not fail; on every buffer
shorter than 4 bytes it fails with the cursor's `TruncatedInputError`. -/
theorem is_recognized_internal_total_from_four (buf : bstr) :
    (4 ≤ buf.length → ∃ b, is_recognized_internal ⟨buf, 0⟩ = .ok b) ∧
    (buf.length < 4 → is_recognized_internal ⟨buf, 0⟩ = .error .TruncatedInputError) := by
  constructor
  · intro h
    exact ⟨buf.take 4 == magic, by simp [is_recognized_internal, ByteCursor.read, magic, h]⟩
  · intro h
    simp [is_recognized_internal, ByteCursor.read, magic, Nat.not_le.mpr h]

theorem is_recognized_internal_total_from_four_witness :
    (∃ b, is_recognized_internal ⟨[0x00, 0x01, 0x02, 0x03], 0⟩ = .ok b) ∧
    is_recognized_internal ⟨[0x4C, 0x4E], 0⟩ = .error .TruncatedInputError :=
  ⟨(is_recognized_internal_total_from_four [0x00, 0x01, 0x02, 0x03]).1 (by decide),
   (is_recognized_internal_total_from_four [0x4C, 0x4E]).2 (by decide)⟩

/-- C11 fails as stated: in `overcount_container` (count field 3, two records
behind the header, so that `3 * 32 = 96` exceeds the 64 bytes that remain)
`read_table` fails with `TruncatedInputError`, not with `CorruptDataError`. -/
theorem read_table_overcount_not_corrupt :
    u32_at overcount_container 4 = 3 ∧
    overcount_container.length - 16 < 32 * u32_at overcount_container 4 ∧
    read_table ⟨overcount_container, 4⟩ = .error .TruncatedInputError ∧
    read_table ⟨overcount_container, 4⟩ ≠ .error .CorruptDataError := by
  decide

/-- C11 (amended): on every container whose `entry_count` is below `2 ^ 31`
and whose `entry_count * 32` exceeds the number of bytes behind the 16-byte
header, `read_table` (cursor behind the magic) fails with the cursor's
`TruncatedInputError` and returns no entries. -/
theorem read_table_overcount_truncated (buf : bstr)
    (_hcount : u32_at buf 4 < 2 ^ 31)
    (h : buf.length < 16 + 32 * u32_at buf 4) :
    read_table ⟨buf, 4⟩ = .error .TruncatedInputError ∧
    ¬ ∃ table arc1, read_table ⟨buf, 4⟩ = .ok (table, arc1) := by
  have hr : read_table ⟨buf, 4⟩ = .error .TruncatedInputError := by
    rw [read_table_eq, if_neg]
    dsimp only
    omega
  refine ⟨hr, ?_⟩
  rintro ⟨table, arc1, ht⟩
  rw [hr] at ht
  cases ht

theorem read_table_overcount_truncated_witness :
    read_table ⟨wrapping_container.take 47, 4⟩ = .error .TruncatedInputError ∧
    ¬ ∃ table arc1, read_table ⟨wrapping_container.take 47, 4⟩ = .ok (table, arc1) :=
  read_table_overcount_truncated (wrapping_container.take 47) (by decide) (by decide)

/-- C12: on every input of at least 4 bytes whose first 4 bytes differ from
`6C 6E 64 00`, `lnd_decompress` fails with `CorruptDataError`, whatever the
decompressor; and `read_file` fails for every compressed entry within the
container whose key-transformed payload does not start with that tag, with
`CorruptDataError` when the payload has at least 4 bytes. -/
theorem lnd_decompress_bad_tag (has_extension : bstr → String → Bool)
    (decompress : bstr → Nat → Except Error bstr) :
    (∀ input : bstr, 4 ≤ input.length → input.take 4 ≠ [0x6C, 0x6E, 0x64, 0x00] →
      lnd_decompress decompress input = .error .CorruptDataError) ∧
    (∀ (arc : ByteCursor) (entry : TableEntry), entry.compressed = true →
      entry.offset + entry.size ≤ arc.buffer.length →
      (key_transform has_extension entry (bytes_at arc.buffer entry.offset entry.size)).take 4 ≠
        [0x6C, 0x6E, 0x64, 0x00] →
      ∃ err, read_file has_extension decompress arc entry = .error err ∧
        (4 ≤ entry.size → err = .CorruptDataError)) := by
  constructor
  · intro input h4 htag
    have htag2 : input.take 4 ≠ compress_magic := htag
    rw [lnd_decompress_eq, if_neg (by omega), if_pos htag2]
  · intro arc entry hc hin htag
    have hlen : (key_transform has_extension entry
        (bytes_at arc.buffer entry.offset entry.size)).length = entry.size := by
      rw [key_transform_length, bytes_at_length _ _ _ hin]
    rw [read_file_in_range _ _ _ _ hin, hc, if_pos rfl, lnd_decompress_eq]
    by_cases h4 : entry.size < 4
    · rw [if_pos (by omega)]
      exact ⟨_, rfl, fun h => absurd h (by omega)⟩
    · have htag2 : (key_transform has_extension entry
          (bytes_at arc.buffer entry.offset entry.size)).take 4 ≠ compress_magic := htag
      rw [if_neg (by omega), if_pos htag2]
      exact ⟨_, rfl, fun _ => rfl⟩

theorem lnd_decompress_bad_tag_witness :
    lnd_decompress sample_decompress [0x6C, 0x6E, 0x64, 0x01, 0x00] = .error .CorruptDataError ∧
    ∃ err, read_file sample_has_extension sample_decompress ⟨sample_container, 0⟩
        ⟨[0x62, 0x2E, 0x74, 0x78, 0x74], true, 80, 5⟩ = .error err ∧
      (4 ≤ 5 → err = .CorruptDataError) :=
  ⟨(lnd_decompress_bad_tag sample_has_extension sample_decompress).1
      [0x6C, 0x6E, 0x64, 0x01, 0x00] (by decide) (by decide),
   (lnd_decompress_bad_tag sample_has_extension sample_decompress).2 ⟨sample_container, 0⟩
      ⟨[0x62, 0x2E, 0x74, 0x78, 0x74], true, 80, 5⟩ rfl (by decide) (by decide)⟩

/-- C13: on an inner-codec buffer with a valid tag, whenever `lnd_decompress`
succeeds the output length is the declared original size (the `u32` at offset
8); and when the stream behind the 16 header bytes decodes to fewer bytes than
declared, `lnd_decompress` fails with `CorruptDataError`. -/
theorem lnd_decompress_declared_size (decode_stream : bstr → bstr) (input : bstr)
    (htag : input.take 4 = [0x6C, 0x6E, 0x64, 0x00]) :
    (∀ out, lnd_decompress (decompress decode_stream) input = .ok out →
      out.length = u32_at input 8) ∧
    (16 ≤ input.length → (decode_stream (input.drop 16)).length < u32_at input 8 →
      lnd_decompress (decompress decode_stream) input = .error .CorruptDataError) := by
  have htag2 : ¬ input.take 4 ≠ compress_magic := fun h => h htag
  constructor
  · intro out h
    rw [lnd_decompress_eq] at h
    by_cases h4 : input.length < 4
    · rw [if_pos h4] at h
      cases h
    · rw [if_neg h4, if_neg htag2] at h
      by_cases h16 : input.length < 16
      · rw [if_pos h16] at h
        cases h
      · rw [if_neg h16] at h
        unfold decompress at h
        by_cases hlen : (decode_stream (input.drop 16)).length = u32_at input 8
        · rw [if_pos hlen] at h
          simp only [Except.ok.injEq] at h
          rw [← h, hlen]
        · rw [if_neg hlen] at h
          cases h
  · intro h16 hshort
    rw [lnd_decompress_eq, if_neg (by omega), if_neg htag2, if_neg (by omega)]
    unfold decompress
    rw [if_neg (by omega)]

theorem lnd_decompress_declared_size_witness :
    (∀ out, lnd_decompress (decompress id) exact_stream_buffer = .ok out →
      out.length = u32_at exact_stream_buffer 8) ∧
    lnd_decompress (decompress id) exact_stream_buffer = .ok [0x01, 0x02, 0x03] ∧
    u32_at short_stream_buffer 8 = 5 ∧
    lnd_decompress (decompress id) short_stream_buffer = .error .CorruptDataError :=
  ⟨(lnd_decompress_declared_size id exact_stream_buffer (by decide)).1,
   by decide, by decide,
   (lnd_decompress_declared_size id short_stream_buffer (by decide)).2 (by decide) (by decide)⟩

/-- C15: with `raw` the `entry.size` bytes that `read_file` has read for an
entry, no write of the key transform falls outside the buffer: the transform
with its writes observed ends normally, with the buffer that `key_transform`
yields; every index it writes lies in the window
`[key_pos, min (key_pos + 256) entry.size)` (with `key_pos >= 0`) and is a valid
index of the buffer; no index is written twice and at most 256 are written; a
byte at an index that is not written is left equal to the raw byte; and the
length of the buffer is kept. -/
theorem key_transform_frame (has_extension : bstr → String → Bool) (entry : TableEntry)
    (c c1 : ByteCursor) (raw : bstr) (hread : c.read entry.size = .ok (raw, c1)) :
    ∃ writes, key_transform_checked has_extension entry raw =
        some (key_transform has_extension entry raw, writes) ∧
      (∀ j ∈ writes, 0 ≤ key_pos has_extension entry.name ∧
        key_pos has_extension entry.name ≤ (j : Int) ∧
        (j : Int) < min (key_pos has_extension entry.name + 256) (entry.size : Int) ∧
        j < raw.length) ∧
      writes.Nodup ∧ writes.length ≤ 256 ∧
      (∀ m, m ∉ writes → (key_transform has_extension entry raw)[m]? = raw[m]?) ∧
      (key_transform has_extension entry raw).length = raw.length := by
  have hlen := read_ok_length hread
  unfold key_transform_checked key_transform
  dsimp only
  by_cases hg : 0 ≤ key_pos has_extension entry.name ∧
      key_pos has_extension entry.name < to_int entry.size
  · rw [if_pos hg, if_pos hg]
    obtain ⟨ws, hws, hwin, hcnt, hnd, hfr⟩ := key_loop_checked_eq entry.size
      (key_pos has_extension entry.name).toNat 0x100 0 (key_seed entry.name) raw (by omega)
    refine ⟨ws, hws, ?_, hnd, by omega, hfr, key_loop_length _ _ _ _ _ _⟩
    intro j hj
    obtain ⟨h1, h2, h3⟩ := hwin j hj
    refine ⟨hg.1, by omega, ?_, by omega⟩
    rw [lt_min_iff]
    constructor <;> omega
  · rw [if_neg hg, if_neg hg]
    refine ⟨[], rfl, ?_, List.nodup_nil, Nat.zero_le _, fun m _ => rfl, rfl⟩
    intro j hj
    cases hj

theorem key_transform_frame_witness :
    ∃ writes, key_transform_checked sample_has_extension
        ⟨[0x61, 0x2E, 0x77, 0x61, 0x76], false, 80, 3⟩ [0x0A, 0x14, 0x1E] =
        some (key_transform sample_has_extension ⟨[0x61, 0x2E, 0x77, 0x61, 0x76], false, 80, 3⟩
          [0x0A, 0x14, 0x1E], writes) ∧
      (∀ j ∈ writes, 0 ≤ key_pos sample_has_extension [0x61, 0x2E, 0x77, 0x61, 0x76] ∧
        key_pos sample_has_extension [0x61, 0x2E, 0x77, 0x61, 0x76] ≤ (j : Int) ∧
        (j : Int) < min (key_pos sample_has_extension [0x61, 0x2E, 0x77, 0x61, 0x76] + 256)
          ((3 : Nat) : Int) ∧
        j < ([0x0A, 0x14, 0x1E] : bstr).length) ∧
      writes.Nodup ∧ writes.length ≤ 256 ∧
      (∀ m, m ∉ writes →
        (key_transform sample_has_extension ⟨[0x61, 0x2E, 0x77, 0x61, 0x76], false, 80, 3⟩
          [0x0A, 0x14, 0x1E])[m]? = ([0x0A, 0x14, 0x1E] : bstr)[m]?) ∧
      (key_transform sample_has_extension ⟨[0x61, 0x2E, 0x77, 0x61, 0x76], false, 80, 3⟩
        [0x0A, 0x14, 0x1E]).length = ([0x0A, 0x14, 0x1E] : bstr).length :=
  key_transform_frame sample_has_extension ⟨[0x61, 0x2E, 0x77, 0x61, 0x76], false, 80, 3⟩
    ⟨sample_container, 80⟩ ⟨sample_container, 83⟩ [0x0A, 0x14, 0x1E] (by decide)

/-- C16 fails as stated: in `huge_container` (`2 ^ 27` records) `read_table`
succeeds and leaves the cursor at `16 + 32 * 2 ^ 27 = 4294967312`, while the
`file_data_start` it added to the relative offsets is 16, the 32-bit shift
`file_count << 5` having wrapped to 0. -/
theorem read_table_file_data_start_wraps :
    u32_at huge_container 4 = 2 ^ 27 ∧
    (∃ table arc1, read_table ⟨huge_container, 4⟩ = .ok (table, arc1) ∧
      arc1.pos = 4294967312) ∧
    file_data_start 16 (u32_at huge_container 4) = 16 := by
  have hc : ∀ tail : bstr, u32_at (huge_header ++ tail) 4 = 2 ^ 27 := by
    intro tail
    simp only [huge_header, u32_at, le_value, List.cons_append, List.drop_succ_cons, List.drop_zero,
      List.take_succ_cons, List.take_zero]
    rfl
  have hlen : huge_container.length = 16 + 2 ^ 32 := by
    simp only [huge_container, List.length_append, List.length_replicate]
    rfl
  have hcount : u32_at huge_container 4 = 2 ^ 27 := hc _
  refine ⟨hcount, ?_, ?_⟩
  · have hr := read_table_eq ⟨huge_container, 4⟩
    have hfit : (⟨huge_container, 4⟩ : ByteCursor).pos + 12 +
        32 * u32_at (⟨huge_container, 4⟩ : ByteCursor).buffer (⟨huge_container, 4⟩ : ByteCursor).pos ≤
        (⟨huge_container, 4⟩ : ByteCursor).buffer.length := by
      dsimp only
      rw [hcount, hlen]
      norm_num
    rw [if_pos hfit] at hr
    refine ⟨_, _, hr, ?_⟩
    dsimp only
    rw [hcount]
    norm_num
  · rw [hcount]
    norm_num [file_data_start]

/-- C16 (amended): when `read_table` succeeds with the cursor starting at
offset 4, the cursor stands afterwards at `16 + 32 * entry_count`; the value
`file_data_start` added, modulo `2 ^ 32`, to every relative offset is
`16 + (32 * entry_count mod 2 ^ 32)`; for `entry_count < 2 ^ 27` it equals the
cursor position, and then an entry of relative offset 0 has the cursor position
as its offset. -/
theorem read_table_cursor_after (buf : bstr) (table : Table) (arc1 : ByteCursor)
    (h : read_table ⟨buf, 4⟩ = .ok (table, arc1)) :
    arc1.pos = 16 + 32 * u32_at buf 4 ∧
    file_data_start 16 (u32_at buf 4) = 16 + (32 * u32_at buf 4) % 2 ^ 32 ∧
    (∀ i, i < u32_at buf 4 →
      ∃ e, table[i]? = some e ∧
        e.offset = (u32_at buf (16 + 32 * i) + file_data_start 16 (u32_at buf 4)) % 2 ^ 32) ∧
    (u32_at buf 4 < 2 ^ 27 →
      file_data_start 16 (u32_at buf 4) = arc1.pos ∧
      ∀ i, i < u32_at buf 4 → u32_at buf (16 + 32 * i) = 0 →
        ∃ e, table[i]? = some e ∧ e.offset = arc1.pos) := by
  obtain ⟨hle, ht, hc⟩ := read_table_ok h
  subst ht
  have hpos : arc1.pos = 16 + 32 * u32_at buf 4 := by
    rw [hc]
  have hfds : file_data_start 16 (u32_at buf 4) = 16 + (32 * u32_at buf 4) % 2 ^ 32 := by
    simp only [file_data_start]
    omega
  have hent : ∀ i, i < u32_at buf 4 →
      ∃ e, ((List.range (u32_at buf 4)).map (fun i =>
          record_at buf (file_data_start (4 + 12) (u32_at buf 4)) (4 + 12 + 32 * i)))[i]? = some e ∧
        e.offset = (u32_at buf (16 + 32 * i) + file_data_start 16 (u32_at buf 4)) % 2 ^ 32 := by
    intro i hi
    refine ⟨_, map_range_getElem? _ _ i hi, ?_⟩
    have e : 4 + 12 + 32 * i = 16 + 32 * i := by omega
    simp only [record_at, e]
  refine ⟨hpos, hfds, hent, ?_⟩
  intro hsmall
  have heq : file_data_start 16 (u32_at buf 4) = arc1.pos := by
    rw [hfds, hpos]
    omega
  refine ⟨heq, ?_⟩
  intro i hi hz
  obtain ⟨e, he, hoff⟩ := hent i hi
  refine ⟨e, he, ?_⟩
  rw [hoff, hz, heq, hpos]
  omega

theorem read_table_cursor_after_witness :
    (⟨sample_container, 80⟩ : ByteCursor).pos = 16 + 32 * u32_at sample_container 4 ∧
    file_data_start 16 (u32_at sample_container 4) =
      16 + (32 * u32_at sample_container 4) % 2 ^ 32 ∧
    (∀ i, i < u32_at sample_container 4 →
      ∃ e, ([⟨[0x61, 0x2E, 0x77, 0x61, 0x76], false, 80, 3⟩,
          ⟨[0x62, 0x2E, 0x74, 0x78, 0x74], false, 83, 2⟩] : Table)[i]? = some e ∧
        e.offset = (u32_at sample_container (16 + 32 * i) +
          file_data_start 16 (u32_at sample_container 4)) % 2 ^ 32) ∧
    (u32_at sample_container 4 < 2 ^ 27 →
      file_data_start 16 (u32_at sample_container 4) = (⟨sample_container, 80⟩ : ByteCursor).pos ∧
      ∀ i, i < u32_at sample_container 4 → u32_at sample_container (16 + 32 * i) = 0 →
        ∃ e, ([⟨[0x61, 0x2E, 0x77, 0x61, 0x76], false, 80, 3⟩,
            ⟨[0x62, 0x2E, 0x74, 0x78, 0x74], false, 83, 2⟩] : Table)[i]? = some e ∧
          e.offset = (⟨sample_container, 80⟩ : ByteCursor).pos) :=
  read_table_cursor_after sample_container _ ⟨sample_container, 80⟩ (by decide)

/-- C17: the key transform is not an involution: for an entry on which the
transform applies (`key_pos >= 0`) and covers at least two bytes
(`key_pos + 1 < entry.size`, the size being below `2 ^ 31` as for every entry of
a table), and for every payload `raw` of `entry.size` bytes, transforming the
transformed payload again does not give back `raw`. -/
theorem key_transform_not_involution (has_extension : bstr → String → Bool)
    (entry : TableEntry) (raw : bstr)
    (hpos : 0 ≤ key_pos has_extension entry.name)
    (hcover : key_pos has_extension entry.name + 1 < (entry.size : Int))
    (hsize : entry.size < 2 ^ 31) (hraw : raw.length = entry.size) :
    key_transform has_extension entry (key_transform has_extension entry raw) ≠ raw := by
  intro heq
  obtain ⟨kp, hkp⟩ := Int.eq_ofNat_of_zero_le hpos
  have hk : (key_pos has_extension entry.name).toNat = kp := by
    rw [hkp]
    exact Int.toNat_ofNat kp
  have hkp1 : kp + 1 < entry.size := by omega
  have hT : ∀ (d : bstr) (i : Nat), i < 2 →
      (key_transform has_extension entry d)[kp + i]? =
        (d[kp + i]?).map (fun b => to_u8 ((b.val : Int) - (key_at entry.name i : Int))) := by
    intro d i hi
    have hw : 0 ≤ key_pos has_extension entry.name ∧
        (key_pos has_extension entry.name).toNat ≤ kp + i ∧
        kp + i < (key_pos has_extension entry.name).toNat + 0x100 ∧ kp + i < entry.size := by
      rw [hk]
      omega
    rw [key_transform_getElem?_of_lt _ _ hsize, if_pos hw, hk, Nat.add_sub_cancel_left]
  have hat : ∀ i, i < 2 → 2 * key_at entry.name i % 256 = 0 := by
    intro i hi
    have hlt : kp + i < raw.length := by omega
    have hget := congrArg (fun l : bstr => l[kp + i]?) heq
    simp only at hget
    rw [hT _ i hi, hT _ i hi, List.getElem?_eq_getElem hlt] at hget
    simp only [Option.map_some', Option.some.injEq] at hget
    exact to_u8_sub_sub_eq _ _ hget
  have h0 := hat 0 (by omega)
  have h1 := hat 1 (by omega)
  have hk1 : key_at entry.name 1 =
      (((key_at entry.name 0 : Int) * 0x6D - 0x25) % 256).toNat := rfl
  omega

theorem key_transform_not_involution_witness :
    key_transform sample_has_extension ⟨[0x61, 0x2E, 0x77, 0x61, 0x76], false, 80, 3⟩
      (key_transform sample_has_extension ⟨[0x61, 0x2E, 0x77, 0x61, 0x76], false, 80, 3⟩
        [0x0A, 0x14, 0x1E]) ≠ [0x0A, 0x14, 0x1E] :=
  key_transform_not_involution sample_has_extension
    ⟨[0x61, 0x2E, 0x77, 0x61, 0x76], false, 80, 3⟩ [0x0A, 0x14, 0x1E]
    (by decide) (by decide) (by decide) (by decide)

/-- C18: for a fixed entry (name and size, the size below `2 ^ 31` as for every
entry of a table) the key transform is a bijection on payload buffers: it keeps
the length, adding the keys `k_0, k_1, ...` back to the bytes at `key_pos + i`
(`key_restore`) restores the payload exactly, every buffer is the transform of
its restored buffer, and two different payloads never transform to the same
bytes. -/
theorem key_transform_bijective (has_extension : bstr → String → Bool) (entry : TableEntry)
    (hsize : entry.size < 2 ^ 31) :
    (∀ raw : bstr, (key_transform has_extension entry raw).length = raw.length) ∧
    (∀ raw : bstr, key_restore has_extension entry (key_transform has_extension entry raw) = raw) ∧
    (∀ data : bstr,
      key_transform has_extension entry (key_restore has_extension entry data) = data) ∧
    (∀ raw1 raw2 : bstr,
      key_transform has_extension entry raw1 = key_transform has_extension entry raw2 →
      raw1 = raw2) := by
  have hleft : ∀ raw : bstr,
      key_restore has_extension entry (key_transform has_extension entry raw) = raw := by
    intro raw
    apply List.ext_getElem?
    intro m
    rw [key_restore_getElem?, key_transform_getElem?_of_lt _ _ hsize]
    split
    · cases raw[m]? with
      | none => rfl
      | some b =>
        simp only [Option.map_some']
        rw [to_u8_sub_add]
    · rfl
  refine ⟨fun raw => key_transform_length _ _ raw, hleft, ?_, ?_⟩
  · intro data
    apply List.ext_getElem?
    intro m
    rw [key_transform_getElem?_of_lt _ _ hsize, key_restore_getElem?]
    split
    · cases data[m]? with
      | none => rfl
      | some b =>
        simp only [Option.map_some']
        rw [to_u8_add_sub]
    · rfl
  · intro raw1 raw2 h
    rw [← hleft raw1, ← hleft raw2, h]

theorem key_transform_bijective_witness :
    key_restore sample_has_extension ⟨[0x61, 0x2E, 0x77, 0x61, 0x76], false, 80, 3⟩
      (key_transform sample_has_extension ⟨[0x61, 0x2E, 0x77, 0x61, 0x76], false, 80, 3⟩
        [0x0A, 0x14, 0x1E]) = [0x0A, 0x14, 0x1E] :=
  (key_transform_bijective sample_has_extension ⟨[0x61, 0x2E, 0x77, 0x61, 0x76], false, 80, 3⟩
    (by decide)).2.1 [0x0A, 0x14, 0x1E]

/-- C19: the key step `key -> (key * 0x6D - 0x25) mod 256` has full period
256: for every seed byte the 256 successive keys `k_0 .. k_255` are pairwise
distinct, every byte value occurs among them, and `k_256 = k_0`. -/
theorem key_full_period (seed : u8) :
    (∀ i j, i < 256 → j < 256 → (key_next^[i]) seed = (key_next^[j]) seed → i = j) ∧
    (∀ v : u8, ∃ i, i < 256 ∧ (key_next^[i]) seed = v) ∧
    (key_next^[256]) seed = seed := by
  have hinj : ∀ i j, i < 256 → j < 256 → (key_next^[i]) seed = (key_next^[j]) seed → i = j := by
    intro i j hi hj h
    have hmp := key_minimalPeriod seed
    exact (Function.iterate_eq_iterate_iff_of_lt_minimalPeriod (by omega) (by omega)).1 h
  refine ⟨hinj, ?_, key_iterate_256 seed⟩
  have hfin : Function.Injective (fun i : Fin 256 => (key_next^[i.val]) seed) := by
    intro a b hab
    exact Fin.ext (hinj a.val b.val a.isLt b.isLt hab)
  intro v
  obtain ⟨i, hi⟩ := Finite.surjective_of_injective hfin v
  exact ⟨i.val, i.isLt, hi⟩

theorem key_full_period_witness :
    ((key_next^[3]) 221 = (key_next^[3]) 221 → 3 = 3) ∧
    (∃ i, i < 256 ∧ (key_next^[i]) 221 = 0) ∧ (key_next^[256]) 221 = 221 :=
  ⟨(key_full_period 221).1 3 3 (by decide) (by decide), (key_full_period 221).2.1 0,
   (key_full_period 221).2.2⟩

end au.fmt.kid

namespace Formats.Glib

open au

/-! ## The PGX converter -/

theorem set_getElem?_map (data : bstr) (p : Nat) (v : u8) (m : Nat) :
    (data.set p v)[m]? = if m = p then (data[p]?).map (fun _ => v) else data[m]? := by
  by_cases hm : m = p
  · subst hm
    rw [if_pos rfl]
    by_cases hlt : m < data.length
    · rw [List.getElem?_set_self hlt, List.getElem?_eq_getElem hlt]
      rfl
    · have h1 : (data.set m v)[m]? = none := by
        apply List.getElem?_eq_none
        rw [List.length_set]
        omega
      have h2 : data[m]? = none := List.getElem?_eq_none (by omega)
      rw [h1, h2]
      rfl
  · rw [if_neg hm, List.getElem?_set_ne (Ne.symm hm)]

theorem alpha_loop_length (size fuel p : Nat) (data : bstr) :
    (alpha_loop size fuel p data).length = data.length := by
  induction fuel generalizing p data with
  | zero => rfl
  | succ fuel ih =>
    unfold alpha_loop
    split
    · rw [ih, List.length_set]
    · rfl

/-- The loop in closed form: it writes `0xff` at `p`, `p + 4`, ... as long as
the offset is below `size`. -/
theorem alpha_loop_getElem? (size fuel p : Nat) (data : bstr) (m : Nat) :
    (alpha_loop size fuel p data)[m]? =
      if p ≤ m ∧ (m - p) % 4 = 0 ∧ m < p + 4 * fuel ∧ m < size then
        (data[m]?).map (fun _ => (0xff : u8))
      else data[m]? := by
  induction fuel generalizing p data with
  | zero =>
    rw [if_neg (by omega)]
    rfl
  | succ fuel ih =>
    unfold alpha_loop
    by_cases hp : p < size
    · rw [if_pos hp, ih, set_getElem?_map]
      by_cases hm : m = p
      · subst hm
        rw [if_neg (by omega), if_pos rfl, if_pos (by omega)]
      · rw [if_neg hm]
        by_cases hw : p + 4 ≤ m ∧ (m - (p + 4)) % 4 = 0 ∧ m < p + 4 + 4 * fuel ∧ m < size
        · rw [if_pos hw, if_pos (by omega)]
        · rw [if_neg hw, if_neg (by omega)]
    · rw [if_neg hp, if_neg (by omega)]

theorem fill_alpha_getElem? (target : bstr) (m : Nat) :
    (fill_alpha target)[m]? =
      if m % 4 = 3 then (target[m]?).map (fun _ => (0xff : u8)) else target[m]? := by
  unfold fill_alpha
  rw [alpha_loop_getElem?]
  by_cases hlt : m < target.length
  · by_cases h3 : m % 4 = 3
    · rw [if_pos (by omega), if_pos h3]
    · rw [if_neg (by omega), if_neg h3]
  · have hn : target[m]? = none := List.getElem?_eq_none (by omega)
    rw [hn]
    split <;> split <;> rfl

theorem read_u16_le_eq (c : ByteCursor) (h : c.pos + 2 ≤ c.buffer.length) :
    c.read_u16_le = .ok (u16_at c.buffer c.pos, ⟨c.buffer, c.pos + 2⟩) := by
  simp [ByteCursor.read_u16_le, ByteCursor.read, h, u16_at]

theorem read_u16_le_fail (c : ByteCursor) (h : ¬ c.pos + 2 ≤ c.buffer.length) :
    c.read_u16_le = .error .TruncatedInputError := by
  simp [ByteCursor.read_u16_le, ByteCursor.read, h]

/-- What a successful run of `decode_internal` has done: the header fits, the
transparency field is the `u16` at offset 16 behind the cursor, and the pixels
are the decoded target buffer, with the alpha bytes filled when that field is
zero. -/
theorem decode_internal_ok (gml_decode : bstr → Nat → Except Error bstr) (file : ByteCursor)
    (image : Image) (h : decode_internal gml_decode file = .ok image) :
    ∃ source target_size target, gml_decode source target_size = .ok target ∧
      image.pixels =
        if u16_at file.buffer (file.pos + 16) != 0 then target else fill_alpha target := by
  unfold decode_internal at h
  by_cases h4 : file.pos + 4 ≤ file.buffer.length
  · rw [show magic.length = 4 from rfl, au.fmt.kid.read_eq file 4 h4] at h
    dsimp only at h
    split at h
    · cases h
    · by_cases h8 : file.pos + 4 + 4 ≤ file.buffer.length
      · simp only [ByteCursor.skip, h8, if_true] at h
        by_cases h12 : file.pos + 4 + 4 + 4 ≤ file.buffer.length
        · rw [au.fmt.kid.read_u32_le_eq ⟨file.buffer, file.pos + 4 + 4⟩ h12] at h
          dsimp only at h
          by_cases h16 : file.pos + 4 + 4 + 4 + 4 ≤ file.buffer.length
          · rw [au.fmt.kid.read_u32_le_eq ⟨file.buffer, file.pos + 4 + 4 + 4⟩ h16] at h
            dsimp only at h
            by_cases h18 : file.pos + 4 + 4 + 4 + 4 + 2 ≤ file.buffer.length
            · rw [read_u16_le_eq ⟨file.buffer, file.pos + 4 + 4 + 4 + 4⟩ h18] at h
              dsimp only at h
              have e16 : file.pos + 4 + 4 + 4 + 4 = file.pos + 16 := by omega
              rw [e16] at h
              split at h
              · cases h
              · split at h
                · cases h
                · split at h
                  · cases h
                  · split at h
                    · cases h
                    · split at h
                      · cases h
                      · rename_i target htarget
                        simp only [Except.ok.injEq] at h
                        refine ⟨_, _, target, htarget, ?_⟩
                        rw [← h]
            · rw [read_u16_le_fail ⟨file.buffer, file.pos + 4 + 4 + 4 + 4⟩ h18] at h
              cases h
          · rw [au.fmt.kid.read_u32_le_fail ⟨file.buffer, file.pos + 4 + 4 + 4⟩ h16] at h
            cases h
        · rw [au.fmt.kid.read_u32_le_fail ⟨file.buffer, file.pos + 4 + 4⟩ h12] at h
          cases h
      · simp only [ByteCursor.skip, h8, if_false] at h
        cases h
  · rw [show magic.length = 4 from rfl, au.fmt.kid.read_fail file 4 h4] at h
    cases h

/-! ## Claims on the PGX converter -/

/-- C20: when `decode_internal` succeeds, with `b` the decoded target buffer:
if the header's 16-bit transparency field is zero, the pixel buffer handed to
`Image::from_pixels` has the length of `b`, has `0xff` at every index `i` with
`i mod 4 = 3` and equals `b` at every other index; if the field is non-zero the
pixel buffer is `b` unchanged. -/
theorem decode_internal_alpha (gml_decode : bstr → Nat → Except Error bstr) (file : ByteCursor)
    (image : Image) (h : decode_internal gml_decode file = .ok image) :
    ∃ source target_size b, gml_decode source target_size = .ok b ∧
      (u16_at file.buffer (file.pos + 16) = 0 →
        image.pixels.length = b.length ∧
        ∀ i, i < b.length →
          (i % 4 = 3 → image.pixels[i]? = some 0xff) ∧
          (i % 4 ≠ 3 → image.pixels[i]? = b[i]?)) ∧
      (u16_at file.buffer (file.pos + 16) ≠ 0 → image.pixels = b) := by
  obtain ⟨source, target_size, b, hb, hpix⟩ := decode_internal_ok gml_decode file image h
  refine ⟨source, target_size, b, hb, ?_, ?_⟩
  · intro hz
    have hp : image.pixels = fill_alpha b := by
      rw [hpix, hz]
      rfl
    rw [hp]
    refine ⟨alpha_loop_length _ _ _ _, ?_⟩
    intro i hi
    rw [fill_alpha_getElem?]
    constructor
    · intro h3
      rw [if_pos h3, List.getElem?_eq_getElem hi]
      rfl
    · intro h3
      rw [if_neg h3]
  · intro hnz
    rw [hpix, if_pos]
    simpa using hnz

theorem decode_internal_alpha_witness :
    (∃ source target_size b, sample_gml_decode source target_size = .ok b ∧
      (u16_at sample_pgx_solid (0 + 16) = 0 →
        ([0x01, 0x02, 0x03, 0xFF, 0x05, 0x06, 0x07, 0xFF] : bstr).length = b.length ∧
        ∀ i, i < b.length →
          (i % 4 = 3 → ([0x01, 0x02, 0x03, 0xFF, 0x05, 0x06, 0x07, 0xFF] : bstr)[i]? = some 0xff) ∧
          (i % 4 ≠ 3 → ([0x01, 0x02, 0x03, 0xFF, 0x05, 0x06, 0x07, 0xFF] : bstr)[i]? = b[i]?)) ∧
      (u16_at sample_pgx_solid (0 + 16) ≠ 0 →
        ([0x01, 0x02, 0x03, 0xFF, 0x05, 0x06, 0x07, 0xFF] : bstr) = b)) ∧
    (∃ source target_size b, sample_gml_decode source target_size = .ok b ∧
      (u16_at sample_pgx_transparent (0 + 16) = 0 →
        ([0x01, 0x02, 0x03, 0x04, 0x05, 0x06, 0x07, 0x08] : bstr).length = b.length ∧
        ∀ i, i < b.length →
          (i % 4 = 3 → ([0x01, 0x02, 0x03, 0x04, 0x05, 0x06, 0x07, 0x08] : bstr)[i]? = some 0xff) ∧
          (i % 4 ≠ 3 → ([0x01, 0x02, 0x03, 0x04, 0x05, 0x06, 0x07, 0x08] : bstr)[i]? = b[i]?)) ∧
      (u16_at sample_pgx_transparent (0 + 16) ≠ 0 →
        ([0x01, 0x02, 0x03, 0x04, 0x05, 0x06, 0x07, 0x08] : bstr) = b)) :=
  ⟨decode_internal_alpha sample_gml_decode ⟨sample_pgx_solid, 0⟩
      ⟨2, 1, [0x01, 0x02, 0x03, 0xFF, 0x05, 0x06, 0x07, 0xFF]⟩ (by decide),
   decode_internal_alpha sample_gml_decode ⟨sample_pgx_transparent, 0⟩
      ⟨2, 1, [0x01, 0x02, 0x03, 0x04, 0x05, 0x06, 0x07, 0x08]⟩ (by decide)⟩

end Formats.Glib
